import Mathlib

/-!
Shallow embedding of the keyword-detection engine from
`src/detector/keyword_matcher.py` (class `KeywordMatcher`).

Texts and keywords are modelled as `List Char` (Python `str` characters).
Category names are `String`.  Python dictionaries (which preserve insertion
order) are modelled as association lists in insertion order.

Configuration data imported from the repository's `detector/constants.py`
(not present under `src/`) is modelled from the spec and marked
`Modelled from the spec:` in its doc comment.
-/

namespace KeywordMatcher

abbrev Str := List Char

/-- Python `str.lower` restricted to the ASCII range, which is all the code
relies on for the mixed Korean/Latin alphabet it processes. -/
def lowerChar (c : Char) : Char :=
  if 'A' ≤ c ∧ c ≤ 'Z' then Char.ofNat (c.toNat + 32) else c

/-- Regex `\s` whitespace characters. -/
def isWsChar (c : Char) : Bool :=
  c = ' ' || c = '\t' || c = '\n' || c = '\r' || c = '\x0b' || c = '\x0c'

/-- Modelled from the spec: the separator-character matcher
(`SEPARATOR_PATTERN` in the missing `detector/constants.py`): whitespace and
common punctuation/delimiter characters. -/
def isSepChar (c : Char) : Bool :=
  isWsChar c ||
    c = '-' || c = '_' || c = '.' || c = ',' || c = '/' || c = '|' ||
    c = ':' || c = ';' || c = '!' || c = '?' || c = '(' || c = ')' ||
    c = '[' || c = ']' || c = '*' || c = '+' || c = '~'

/-- Case-sensitive check that `needle` starts the list `hay`. -/
def startsWith : Str → Str → Bool
  | [], _ => true
  | _ :: _, [] => false
  | c :: cs, x :: xs => c = x && startsWith cs xs

/-- Position of the first occurrence of `needle` in `s` (Python `str.find`
restricted to a suffix), `none` when absent.  An empty needle matches at 0. -/
def findInSuffix (needle : Str) : Str → Option Nat
  | [] => if needle.isEmpty then some 0 else none
  | c :: cs =>
    if startsWith needle (c :: cs) then some 0
    else (findInSuffix needle cs).map (· + 1)

/-- Python `needle in hay` for strings. -/
def subStr (needle hay : Str) : Bool := (findInSuffix needle hay).isSome

/-- Python `hay.find(needle, start)`. -/
def findFrom (hay needle : Str) (start : Nat) : Option Nat :=
  if start ≤ hay.length then (findInSuffix needle (hay.drop start)).map (· + start)
  else none

/-- Case-insensitive literal prefix match; returns the remaining suffix. -/
def matchLits : Str → Str → Option Str
  | [], s => some s
  | _ :: _, [] => none
  | c :: cs, x :: xs => if lowerChar x = lowerChar c then matchLits cs xs else none

/-- Drop a maximal run of leading whitespace. -/
def dropWs : Str → Str
  | [] => []
  | c :: cs => if isWsChar c then dropWs cs else c :: cs

/-- Length of the maximal run of leading whitespace. -/
def wsPrefixLen : Str → Nat
  | [] => 0
  | c :: cs => if isWsChar c then wsPrefixLen cs + 1 else 0

/-- Match a sequence of literal character groups separated by optional
whitespace (the shape of the regex patterns `'디\s*비'`, `'아이\s*디'`, …
used by the matcher), case-insensitively; returns the remaining suffix. -/
def matchGroupsRest : List Str → Str → Option Str
  | [], s => some s
  | [g], s => matchLits g s
  | g :: g' :: gs, s =>
    match matchLits g s with
    | none => none
    | some rest => matchGroupsRest (g' :: gs) (dropWs rest)

/-- One pass of `re.sub` for a groups-with-optional-whitespace pattern:
leftmost, non-overlapping, global replacement (fueled recursion). -/
def subWsAux (groups : List Str) (rep : Str) : Nat → Str → Str
  | 0, s => s
  | _, [] => []
  | fuel + 1, c :: cs =>
    match matchGroupsRest groups (c :: cs) with
    | some rest =>
      if rest.length < (c :: cs).length then rep ++ subWsAux groups rep fuel rest
      else c :: subWsAux groups rep fuel cs
    | none => c :: subWsAux groups rep fuel cs

/-- `re.sub(pattern, rep, s, flags=IGNORECASE)` for a
groups-with-optional-whitespace pattern. -/
def subWs (groups : List Str) (rep : Str) (s : Str) : Str :=
  subWsAux groups rep s.length s

/-- Modelled from the spec: the canonical alias substitution table
(`ALIAS_MAPPINGS` in the missing `detector/constants.py`): an ordered list of
case-insensitive substitution rules mapping the phonetic-Korean marker
spellings to their Latin abbreviations (the direction in which "one Korean
syllable collapses to two Latin letters"), tolerant of interior whitespace. -/
def ALIAS_MAPPINGS : List (List Str × Str) :=
  [([['디'], ['비']], ['D', 'B']), ([['아', '이'], ['디']], ['I', 'D'])]

/-- The alias-substitution pass shared by `_normalize` and `_build_norm_map`:
apply every alias rule in table order. -/
def applyAliases (s : Str) : Str :=
  ALIAS_MAPPINGS.foldl (fun t pr => subWs pr.1 pr.2 t) s

/-- `KeywordMatcher._normalize`: alias substitution, case folding, then
separator stripping. -/
def normalize (s : Str) : Str :=
  ((applyAliases s).map lowerChar).filter (fun c => !isSepChar c)

/-- Helper for `_build_norm_map`: walk the working string from offset `i`,
dropping separators, lowering the rest, and recording each kept character's
offset. -/
def buildNormMapAux : Str → Nat → Str × List Nat
  | [], _ => ([], [])
  | c :: cs, i =>
    let r := buildNormMapAux cs (i + 1)
    if isSepChar c then r else (lowerChar c :: r.1, i :: r.2)

/-- `KeywordMatcher._build_norm_map`: the normalized text together with the
map from each normalized position to its offset in the alias-substituted
working string. -/
def buildNormMap (text : Str) : Str × List Nat :=
  buildNormMapAux (applyAliases text) 0

/-- Insertion-ordered duplicate removal (models `list(set(...))` content;
the order is a modelling choice since Python set order is unspecified). -/
def dedupFirstAux (seen : List Str) : List Str → List Str
  | [] => []
  | x :: xs =>
    if x ∈ seen then dedupFirstAux seen xs else x :: dedupFirstAux (x :: seen) xs

def dedupFirst (l : List Str) : List Str := dedupFirstAux [] l

/-- `KeywordMatcher._expand_alias_variants`: the minimal DB/디비 and ID/아이디
round-trip variants of a keyword. -/
def expandAliasVariants (s : Str) : List Str :=
  dedupFirst
    [s,
     subWs [['디'], ['비']] ['D', 'B'] s,
     subWs [['아', '이'], ['디']] ['I', 'D'] s,
     subWs [['D'], ['B']] ['디', '비'] s,
     subWs [['I'], ['D']] ['아', '이', '디'] s]

/-- A compiled normalized form: `{'norm': …, 'raw': …}` entries of
`compiled_norms`. -/
structure NormItem where
  norm : Str
  raw : Str
deriving DecidableEq, Repr

/-- Inner loop of `_compile_norms` (exact mode): add each alias variant's
normalization when non-empty and unseen. -/
def addVariants (raw : Str) : List Str → List Str × List NormItem → List Str × List NormItem
  | [], st => st
  | v :: vs, (seen, acc) =>
    let n := normalize v
    if n ≠ [] ∧ n ∉ seen then addVariants raw vs (n :: seen, acc ++ [⟨n, raw⟩])
    else addVariants raw vs (seen, acc)

/-- Per-category bucket of `_compile_norms` in exact search mode. -/
def compileBucketGo (seen : List Str) (acc : List NormItem) : List Str → List NormItem
  | [] => acc
  | raw :: rest =>
    let st := addVariants raw (expandAliasVariants raw) (seen, acc)
    compileBucketGo st.1 st.2 rest

/-- `KeywordMatcher._compile_norms` with `search_mode = "exact"`. -/
def compileNormsExact (illegal : List (String × List Str)) : List (String × List NormItem) :=
  illegal.map (fun pr => (pr.1, compileBucketGo [] [] pr.2))

/-- A detected hit, the dictionaries appended by `detect_keywords_in_text`. -/
structure Hit where
  keyword : Str
  matched_text : Str
  start_position : Nat
  end_position : Nat
  context : Str
deriving DecidableEq, Repr

/-- Faults a detection call can raise to the caller (Python exceptions):
an index-map access out of bounds (`IndexError`), a malformed category
pattern reaching the regex engine (`re.error`), or non-termination of the
scan loop, represented by fuel exhaustion. -/
inductive DetErr where
  | indexFault
  | regexFault
  | fuelOut
deriving DecidableEq, Repr

instance exceptDecEq {ε α : Type} [DecidableEq ε] [DecidableEq α] :
    DecidableEq (Except ε α) := fun a b =>
  match a, b with
  | .ok x, .ok y =>
    if h : x = y then isTrue (by rw [h])
    else isFalse (fun hc => h (Except.ok.inj hc))
  | .error x, .error y =>
    if h : x = y then isTrue (by rw [h])
    else isFalse (fun hc => h (Except.error.inj hc))
  | .ok _, .error _ => isFalse (fun hc => Except.noConfusion hc)
  | .error _, .ok _ => isFalse (fun hc => Except.noConfusion hc)

/-- Python `s.replace(pat, rep)`: global leftmost non-overlapping
replacement; an empty pattern matches between every character. -/
def strReplaceAux (pat rep : Str) : Nat → Str → Str
  | 0, s => s
  | _, [] => []
  | fuel + 1, c :: cs =>
    if startsWith pat (c :: cs) then rep ++ strReplaceAux pat rep fuel ((c :: cs).drop pat.length)
    else c :: strReplaceAux pat rep fuel cs

def strReplace (s pat rep : Str) : Str :=
  if pat.isEmpty then rep ++ s.flatMap (fun c => c :: rep)
  else strReplaceAux pat rep s.length s

/-- `KeywordMatcher._get_context`: a bounded window around the match with
every occurrence of the matched substring delimited by `**`. -/
def getContext (text : Str) (s e : Nat) (size : Nat) : Str :=
  let a := s - size
  let b := min text.length (e + size)
  let ctx := (text.drop a).take (b - a)
  let mid := (text.drop s).take (e - s)
  strReplace ctx mid (['*', '*'] ++ mid ++ ['*', '*'])

/-- Modelled from the spec: an entry of the per-category pattern table
(`CATEGORY_PATTERNS` in the missing `detector/constants.py`).  A pattern is
either a well-formed regex, abstracted as a literal substring matcher, or a
malformed entry that makes the regex engine fault when first used. -/
inductive CatPat where
  | malformed
  | lit (p : Str)
deriving DecidableEq, Repr

/-- Python membership of a character in the alphanumeric class as `str.isalnum`
sees the engine's mixed Korean/Latin alphabet. -/
def isAlnumChar (c : Char) : Bool :=
  c.isAlphanum || (0xAC00 ≤ c.toNat && c.toNat ≤ 0xD7A3)

/-- All spans of non-overlapping leftmost occurrences of a literal pattern
(`re.finditer` for a literal regex). -/
def litFindIterAux (p : Str) (s : Str) : Nat → Nat → List (Nat × Nat)
  | 0, _ => []
  | fuel + 1, pos =>
    match findFrom s p pos with
    | none => []
    | some q =>
      (q, q + p.length) ::
        litFindIterAux p s fuel (if p.length = 0 then q + 1 else q + p.length)

def litFindIter (p s : Str) : List (Nat × Nat) := litFindIterAux p s (s.length + 1) 0

/-- `KeywordMatcher._check_word_boundaries_regex` for a literal pattern:
some occurrence in the lowered text is flanked by non-alphanumerics. -/
def checkWordBoundaries (text : Str) (p : Str) : Bool :=
  (litFindIter p (text.map lowerChar)).any (fun se =>
    (decide (se.1 = 0) || !isAlnumChar (text.getD (se.1 - 1) ' ')) &&
    (decide (se.2 = text.length) || !isAlnumChar (text.getD se.2 ' ')))

/-- Pattern loop of `KeywordMatcher._match_category_pattern`: `some b` when a
pattern matched the keyword and the window (returning the boundary check),
`none` when no pattern applied and the fallback runs. -/
def matchCategoryPatternGo (kwL txtL txt : Str) : List CatPat → Except DetErr (Option Bool)
  | [] => .ok none
  | .malformed :: _ => .error .regexFault
  | .lit p :: rest =>
    if subStr p kwL then
      if subStr p txtL then .ok (some (checkWordBoundaries txt p))
      else matchCategoryPatternGo kwL txtL txt rest
    else matchCategoryPatternGo kwL txtL txt rest

/-- The separator-stripped fallback normalization local to
`_match_category_pattern`. -/
def simpleNormalize (s : Str) : Str :=
  (s.map lowerChar).filter (fun c => !(c = ' ' || c = '-' || c = '_'))

/-- `KeywordMatcher._match_category_pattern`. -/
def matchCategoryPattern (kw txt : Str) (pats : List CatPat) : Except DetErr Bool :=
  match matchCategoryPatternGo (kw.map lowerChar) (txt.map lowerChar) txt pats with
  | .error e => .error e
  | .ok (some b) => .ok b
  | .ok none => .ok (subStr (simpleNormalize kw) (simpleNormalize txt))

/-- `KeywordMatcher._is_exact_keyword_pattern`: narrow ±10 window; categories
with no configured patterns pass unconditionally. -/
def isExactKeywordPattern (catPats : List (String × List CatPat)) (kw text : Str)
    (s e : Nat) (cat : String) : Except DetErr Bool :=
  let es := s - 10
  let ee := min text.length (e + 10)
  let ext := (text.drop es).take (ee - es)
  match List.lookup cat catPats with
  | none => .ok true
  | some [] => .ok true
  | some pats => matchCategoryPattern kw ext pats

/-- Modelled from the spec: the trade-intent indicator words
(`TRADE_INDICATORS` in the missing `detector/constants.py`). -/
def TRADE_INDICATORS : List Str := [['판', '매'], ['팝', '니', '다'], ['삽', '니', '다']]

/-- Modelled from the spec: the negative/negation indicator words
(`NEGATIVE_INDICATORS` in the missing `detector/constants.py`). -/
def NEGATIVE_INDICATORS : List Str := [['예', '시'], ['아', '님']]

/-- Modelled from the spec: the per-category required indicator words
(`REQUIRED_INDICATORS` in the missing `detector/constants.py`). -/
def REQUIRED_INDICATORS : List (String × List Str) :=
  [("loan_db", [['거', '래']]), ("personal_db", [['판', '매']])]

/-- The `db_keywords` marker list of `_is_valid_illegal_context`. -/
def dbKeywords : List Str := [['d', 'b'], ['디', '비'], ['d', '.', 'b'], ['d', ' ', 'b']]

/-- `KeywordMatcher._is_valid_illegal_context`. -/
def isValidIllegalContext (keyword context : Str) (category : String) : Bool :=
  let contextLower := context.map lowerChar
  let keywordLower := keyword.map lowerChar
  if category = "personal_db" && dbKeywords.any (fun d => subStr d keywordLower) then
    !(NEGATIVE_INDICATORS.any (fun n => subStr n contextLower))
  else
    let keywordHasTrade := TRADE_INDICATORS.any (fun t => subStr t keywordLower)
    let contextHasTrade := TRADE_INDICATORS.any (fun t => subStr t contextLower)
    let categoryRequired := (List.lookup category REQUIRED_INDICATORS).getD []
    let hasRequiredInContext := categoryRequired.any (fun r => subStr r contextLower)
    let hasRequired := if keywordHasTrade || contextHasTrade then true else hasRequiredInContext
    let hasNegative := NEGATIVE_INDICATORS.any (fun n => subStr n contextLower)
    hasRequired && !hasNegative

/-- `KeywordMatcher._passes_secondary_filter`. -/
def passesSecondaryFilter (catPats : List (String × List CatPat))
    (originalKeyword _matchedText fullText : Str) (s e : Nat) (cat : String) :
    Except DetErr Bool :=
  match isExactKeywordPattern catPats originalKeyword fullText s e cat with
  | .error err => .error err
  | .ok false => .ok false
  | .ok true => .ok (isValidIllegalContext originalKeyword (getContext fullText s e 150) cat)

/-- Python list indexing `l[i]`, including negative indices from the end;
out-of-range access is an `IndexError`. -/
def pyGet (l : List Nat) (i : Int) : Except DetErr Nat :=
  let j : Int := if i < 0 then (l.length : Int) + i else i
  if 0 ≤ j ∧ j < (l.length : Int) then .ok (l.getD j.toNat 0) else .error .indexFault

def mkHit (kw mt : Str) (s e : Nat) (text : Str) : Hit :=
  { keyword := kw, matched_text := mt, start_position := s, end_position := e,
    context := getContext text s e 50 }

/-- The `while True` scan of `detect_keywords_in_text` for one compiled
needle: repeated `find` from the previous match's end, index-map translation,
optional secondary filtering. -/
def scanNeedle (catPats : List (String × List CatPat)) (enableSec : Bool)
    (text normText : Str) (idxMap : List Nat) (cat : String) (item : NormItem) :
    Nat → Nat → Except DetErr (List Hit)
  | 0, _ => .error .fuelOut
  | fuel + 1, start =>
    match findFrom normText item.norm start with
    | none => .ok []
    | some pos =>
      let endPos := pos + item.norm.length
      match pyGet idxMap (pos : Int), pyGet idxMap ((endPos : Int) - 1) with
      | .ok origStart, .ok oe0 =>
        let origEnd := oe0 + 1
        let matchedText := (text.drop origStart).take (origEnd - origStart)
        let keep : Except DetErr Bool :=
          if enableSec then
            passesSecondaryFilter catPats item.raw matchedText text origStart origEnd cat
          else .ok true
        match keep with
        | .error err => .error err
        | .ok b =>
          match scanNeedle catPats enableSec text normText idxMap cat item fuel endPos with
          | .error err => .error err
          | .ok rest =>
            .ok (if b then mkHit item.raw matchedText origStart origEnd text :: rest else rest)
      | .error err, _ => .error err
      | _, .error err => .error err

/-- Inner `for item in items` loop of the exact/partial scan. -/
def scanItems (catPats : List (String × List CatPat)) (enableSec : Bool)
    (text normText : Str) (idxMap : List Nat) (cat : String) :
    List NormItem → Except DetErr (List Hit)
  | [] => .ok []
  | item :: rest =>
    match scanNeedle catPats enableSec text normText idxMap cat item (normText.length + 2) 0 with
    | .error err => .error err
    | .ok hs =>
      match scanItems catPats enableSec text normText idxMap cat rest with
      | .error err => .error err
      | .ok hs' => .ok (hs ++ hs')

/-- The false-positive filter block of `detect_keywords_in_text`. -/
def fpFilter (fp : List (String × List Str)) (cat : String) (hits : List Hit) : List Hit :=
  match List.lookup cat fp with
  | none => hits
  | some [] => hits
  | some phrases =>
    let fpNorms := (phrases.filter (fun x => !x.isEmpty)).map normalize
    hits.filter (fun h => !(fpNorms.any (fun p => subStr p (normalize h.context))))

/-- Per-category loop of the default (exact/partial) detection path. -/
def detectExactGo (catPats : List (String × List CatPat)) (fp : List (String × List Str))
    (enableSec : Bool) (text normText : Str) (idxMap : List Nat) :
    List (String × List NormItem) → Except DetErr (List (String × List Hit))
  | [] => .ok []
  | (cat, items) :: rest =>
    match scanItems catPats enableSec text normText idxMap cat items with
    | .error err => .error err
    | .ok hs =>
      let hs := fpFilter fp cat hs
      match detectExactGo catPats fp enableSec text normText idxMap rest with
      | .error err => .error err
      | .ok tail => .ok (if hs.isEmpty then tail else (cat, hs) :: tail)

/-- The default detection path of `detect_keywords_in_text` before
deduplication. -/
def detectExact (compiled : List (String × List NormItem)) (fp : List (String × List Str))
    (catPats : List (String × List CatPat)) (text : Str) (enableSec : Bool) :
    Except DetErr (List (String × List Hit)) :=
  let nm := buildNormMap text
  detectExactGo catPats fp enableSec text nm.1 nm.2 compiled

/-- `KeywordMatcher._check_full_keyword_presence`: some alias variant's
normalization is contained in the normalized text. -/
def checkFullKeywordPresence (keyword text : Str) : Bool :=
  let textNorm := normalize text
  (expandAliasVariants keyword).any (fun v => subStr (normalize v) textNorm)

/-- A token of the flexible regex built by `_create_flexible_pattern`:
an escaped literal character, an interleaved `\s*`, or one of the DB/ID
marker alternations. -/
inductive FlexTok where
  | lit (c : Char)
  | ws
  | alt (alts : List Str)
deriving DecidableEq, Repr

/-- Alternatives of `(?:DB|디비|D\.?B)` in regex backtracking order (the
optional dot expanded greedily). -/
def dbAlts : List Str := [['D', 'B'], ['디', '비'], ['D', '.', 'B'], ['D', 'B']]

/-- Alternatives of `(?:ID|아이디|I\.?D)` in regex backtracking order. -/
def idAlts : List Str := [['I', 'D'], ['아', '이', '디'], ['I', '.', 'D'], ['I', 'D']]

/-- Join escaped characters with `\s*` (the `r'\s*'.join(chars)` step). -/
def interleaveWs : Str → List FlexTok
  | [] => []
  | [c] => [.lit c]
  | c :: c' :: cs => .lit c :: .ws :: interleaveWs (c' :: cs)

/-- Leftmost non-overlapping replacement of a token subsequence (the
`pattern.replace('D\\s*B', …)` steps, performed on the pattern text). -/
def replaceToksAux (pat : List FlexTok) (rep : FlexTok) : Nat → List FlexTok → List FlexTok
  | 0, s => s
  | _, [] => []
  | fuel + 1, t :: ts =>
    if !pat.isEmpty && pat.isPrefixOf (t :: ts) then
      rep :: replaceToksAux pat rep fuel ((t :: ts).drop pat.length)
    else t :: replaceToksAux pat rep fuel ts

def replaceToks (pat : List FlexTok) (rep : FlexTok) (s : List FlexTok) : List FlexTok :=
  replaceToksAux pat rep s.length s

/-- `KeywordMatcher._create_flexible_pattern` as a token list. -/
def createFlexiblePattern (keyword : Str) : List FlexTok :=
  let base := interleaveWs keyword
  let p1 := replaceToks [.lit 'D', .ws, .lit 'B'] (.alt dbAlts) base
  let p2 := replaceToks [.lit '디', .ws, .lit '비'] (.alt dbAlts) p1
  let p3 := replaceToks [.lit 'I', .ws, .lit 'D'] (.alt idAlts) p2
  replaceToks [.lit '아', .ws, .lit '이', .ws, .lit '디'] (.alt idAlts) p3

mutual

/-- Backtracking matcher for the flexible pattern (case-insensitive,
first-match semantics of the Python regex engine); returns the remaining
suffix of the first successful parse. -/
def matchToksF : Nat → List FlexTok → Str → Option Str
  | 0, _, _ => none
  | _ + 1, [], s => some s
  | _ + 1, .lit _ :: _, [] => none
  | fuel + 1, .lit c :: rest, x :: xs =>
    if lowerChar x = lowerChar c then matchToksF fuel rest xs else none
  | fuel + 1, .ws :: rest, s => matchWsF fuel rest s (wsPrefixLen s)
  | fuel + 1, .alt as :: rest, s => matchAltF fuel as rest s

/-- Greedy `\s*` with backtracking: try consuming `i` whitespace characters,
longest first. -/
def matchWsF : Nat → List FlexTok → Str → Nat → Option Str
  | 0, _, _, _ => none
  | fuel + 1, rest, s, 0 => matchToksF fuel rest s
  | fuel + 1, rest, s, i + 1 =>
    match matchToksF fuel rest (s.drop (i + 1)) with
    | some r => some r
    | none => matchWsF fuel rest s i

/-- Alternation: try each branch in order, backtracking into the
continuation. -/
def matchAltF : Nat → List Str → List FlexTok → Str → Option Str
  | 0, _, _, _ => none
  | _ + 1, [], _, _ => none
  | fuel + 1, a :: as, rest, s =>
    match matchLits a s with
    | some r =>
      match matchToksF fuel rest r with
      | some r2 => some r2
      | none => matchAltF fuel as rest s
    | none => matchAltF fuel as rest s

end

/-- Fuel that bounds the depth of the backtracking matcher. -/
def flexFuel (toks : List FlexTok) (s : Str) : Nat :=
  (toks.length + 1) * (s.length + 2)

def matchToks (toks : List FlexTok) (s : Str) : Option Str :=
  matchToksF (flexFuel toks s) toks s

/-- `re.finditer` for the flexible pattern: leftmost matches, advancing past
each match (one character past an empty match). -/
def flexFindIterAux (toks : List FlexTok) (text : Str) : Nat → Nat → List (Nat × Nat)
  | 0, _ => []
  | fuel + 1, pos =>
    if pos > text.length then []
    else
      match matchToks toks (text.drop pos) with
      | some r =>
        let consumed := (text.drop pos).length - r.length
        if consumed = 0 then (pos, pos) :: flexFindIterAux toks text fuel (pos + 1)
        else (pos, pos + consumed) :: flexFindIterAux toks text fuel (pos + consumed)
      | none => flexFindIterAux toks text fuel (pos + 1)

def flexFindIter (toks : List FlexTok) (text : Str) : List (Nat × Nat) :=
  flexFindIterAux toks text (text.length + 2) 0

/-- `KeywordMatcher._find_keyword_positions`. -/
def findKeywordPositions (keyword text : Str) : List (Nat × Nat × Str) :=
  (expandAliasVariants keyword).flatMap (fun v =>
    (flexFindIter (createFlexiblePattern v) text).map (fun se =>
      (se.1, se.2, (text.drop se.1).take (se.2 - se.1))))

/-- Per-position loop of `_detect_with_combination_filter`. -/
def combHitsForKw (catPats : List (String × List CatPat)) (enableSec : Bool)
    (text : Str) (cat : String) (kw : Str) :
    List (Nat × Nat × Str) → Except DetErr (List Hit)
  | [] => .ok []
  | (s, e, m) :: ps =>
    let keep : Except DetErr Bool :=
      if enableSec then passesSecondaryFilter catPats kw m text s e cat else .ok true
    match keep with
    | .error err => .error err
    | .ok b =>
      match combHitsForKw catPats enableSec text cat kw ps with
      | .error err => .error err
      | .ok rest => .ok (if b then mkHit kw m s e text :: rest else rest)

/-- Per-keyword loop of `_detect_with_combination_filter`. -/
def combHitsForCat (catPats : List (String × List CatPat)) (enableSec : Bool)
    (text : Str) (cat : String) : List Str → Except DetErr (List Hit)
  | [] => .ok []
  | kw :: rest =>
    let h : Except DetErr (List Hit) :=
      if checkFullKeywordPresence kw text then
        combHitsForKw catPats enableSec text cat kw (findKeywordPositions kw text)
      else .ok []
    match h with
    | .error err => .error err
    | .ok hs =>
      match combHitsForCat catPats enableSec text cat rest with
      | .error err => .error err
      | .ok hs' => .ok (hs ++ hs')

/-- `KeywordMatcher._detect_with_combination_filter` (note: no
false-positive filtering in this path). -/
def detectComb (illegal : List (String × List Str))
    (catPats : List (String × List CatPat)) (enableSec : Bool) (text : Str) :
    Except DetErr (List (String × List Hit)) :=
  go illegal
where
  go : List (String × List Str) → Except DetErr (List (String × List Hit))
    | [] => .ok []
    | (cat, klist) :: rest =>
      match combHitsForCat catPats enableSec text cat klist with
      | .error err => .error err
      | .ok hs =>
        match go rest with
        | .error err => .error err
        | .ok tail => .ok (if hs.isEmpty then tail else (cat, hs) :: tail)

/-- Sort key comparison `(start_position, end_position)` of
`_remove_duplicates`. -/
def hitLexLE (a b : Hit) : Bool :=
  decide (a.start_position < b.start_position) ||
    (decide (a.start_position = b.start_position) &&
      decide (a.end_position ≤ b.end_position))

/-- Stable insertion preserving the relative order of equal keys (the
stability of Python's `sorted`). -/
def insertHit (x : Hit) : List Hit → List Hit
  | [] => [x]
  | y :: ys => if hitLexLE y x then y :: insertHit x ys else x :: y :: ys

/-- Stable sort by `(start_position, end_position)`. -/
def sortHits (l : List Hit) : List Hit := l.foldl (fun acc x => insertHit x acc) []

/-- `KeywordMatcher._is_overlapping_or_contained`. -/
def isOverlappingOrContained (h1 h2 : Hit) : Bool :=
  !(decide (h1.end_position ≤ h2.start_position) ||
    decide (h2.end_position ≤ h1.start_position))

def samePos (a b : Hit) : Bool :=
  decide (a.start_position = b.start_position) && decide (a.end_position = b.end_position)

/-- The `for existing_hit in unique_hits[:]` comparison loop of
`_remove_duplicates`: iterates over a snapshot while removing losers from
the live list; returns the live list and the `should_add` flag. -/
def dedupLoop (cur : Hit) : List Hit → List Hit → List Hit × Bool
  | [], unique => (unique, true)
  | e :: rest, unique =>
    if samePos cur e then
      if e.keyword.length < cur.keyword.length then dedupLoop cur rest (unique.erase e)
      else (unique, false)
    else if isOverlappingOrContained cur e then
      if e.keyword.length < cur.keyword.length then dedupLoop cur rest (unique.erase e)
      else (unique, false)
    else dedupLoop cur rest unique

/-- One iteration of the outer `for current_hit in hits_sorted` loop. -/
def dedupStep (unique : List Hit) (cur : Hit) : List Hit :=
  match dedupLoop cur unique unique with
  | (u, true) => u ++ [cur]
  | (u, false) => u

/-- `_remove_duplicates` within one category. -/
def removeDupHits (hits : List Hit) : List Hit :=
  (sortHits hits).foldl dedupStep []

/-- `KeywordMatcher._remove_duplicates`. -/
def removeDuplicates : List (String × List Hit) → List (String × List Hit)
  | [] => []
  | (cat, hits) :: rest =>
    if hits.isEmpty then removeDuplicates rest
    else
      let u := removeDupHits hits
      if u.isEmpty then removeDuplicates rest else (cat, u) :: removeDuplicates rest

/-- `KeywordMatcher.detect_keywords_in_text`.  The compiled norms are passed
explicitly so that both search modes of `_compile_norms` are covered. -/
def detectKeywordsInText (illegal fp : List (String × List Str))
    (catPats : List (String × List CatPat)) (compiled : List (String × List NormItem))
    (text : Str) (enableSec requireComb : Bool) :
    Except DetErr (List (String × List Hit)) :=
  if text.isEmpty then .ok []
  else if requireComb then
    match detectComb illegal catPats enableSec text with
    | .error err => .error err
    | .ok d => .ok (removeDuplicates d)
  else
    match detectExact compiled fp catPats text enableSec with
    | .error err => .error err
    | .ok d => .ok (removeDuplicates d)

/-- A constructed engine: the state `__init__` leaves behind
(`illegal_keywords`, `false_positive`, `compiled_norms`). -/
structure Engine where
  illegal : List (String × List Str)
  falsePositive : List (String × List Str)
  compiled : List (String × List NormItem)
deriving DecidableEq, Repr

/-- `KeywordMatcher.__init__` (exact mode): loads the catalog and the
false-positive set and compiles the normalized forms.  It takes the
category-pattern table as input but — like the source constructor — performs
no validation or compilation of it. -/
def constructEngine (illegal fp : List (String × List Str))
    (_catPats : List (String × List CatPat)) : Except DetErr Engine :=
  .ok { illegal := illegal, falsePositive := fp, compiled := compileNormsExact illegal }

/-- A token that must consume at least one character. -/
def tokSolid : FlexTok → Bool
  | .lit _ => true
  | .ws => false
  | .alt _ => true

def hasSolid (toks : List FlexTok) : Bool := toks.any tokSolid

/-- Every alternation branch in the token list is a non-empty literal. -/
def altsWF (toks : List FlexTok) : Prop :=
  ∀ t ∈ toks, ∀ as, t = FlexTok.alt as → ∀ a ∈ as, a ≠ []

/-- The concrete catalog of the C8 failing configuration. -/
def c8Illegal : List (String × List Str) := [("cat", [['토', '토']])]

/-- The C8 failing configuration: the category-pattern table of the
secondary filter contains a malformed pattern. -/
def c8Pats : List (String × List CatPat) := [("cat", [CatPat.malformed])]

/-- Hits for the C2 counterexample: a transitive overlap cluster
`A ∼ B ∼ C` with `A`, `C` disjoint. -/
def c2hA : Hit := ⟨['a', 'a', 'a', 'a', 'a', 'a', 'a', 'a', 'a', 'a'], [], 0, 10, []⟩

def c2hB : Hit := ⟨['b', 'b', 'b'], [], 5, 13, []⟩

def c2hC : Hit := ⟨['c', 'c', 'c', 'c', 'c', 'c', 'c', 'c', 'c'], [], 12, 20, []⟩

/-- Hits for the second C2 counterexample: overlapping pair `E`, `F` where
the kept hit's keyword is shorter than the discarded one's. -/
def c2hD : Hit := ⟨['d', 'd', 'd', 'd', 'd', 'd', 'd', 'd', 'd'], [], 0, 10, []⟩

def c2hE : Hit := ⟨['e', 'e', 'e', 'e', 'e'], [], 8, 25, []⟩

def c2hF : Hit := ⟨['f', 'f'], [], 20, 30, []⟩

/-- The C1 counterexample catalog: a category whose keyword list contains
the empty string. -/
def c1Illegal : List (String × List Str) := [("cat", [[]])]

/-- The C4 counterexample catalog: the category holds both the keyword and
a longer keyword that textually contains it. -/
def c4Illegal : List (String × List Str) :=
  [("cat", [['토', '토'], ['메', '가', '토', '토']])]

/-- The C5 counterexample catalog and false-positive configuration. -/
def c5Illegal : List (String × List Str) := [("cat", [['토', '토']])]

def c5Fp : List (String × List Str) := [("cat", [['신', '고']])]

/-- The acceptance condition of the secondary filter's context check, as
the spec states it: in the personal-data-sale category a keyword carrying a
DB/디비 marker skips the required-indicator test and is accepted iff no
negative indicator appears in the context; otherwise accept iff (a
trade-intent indicator is present in the keyword or in the context, or a
required indicator for the category is present in the context) and no
negative indicator is present in the context. -/
def specContextAccept (keyword context : Str) (category : String) : Bool :=
  let contextLower := context.map lowerChar
  let keywordLower := keyword.map lowerChar
  let hasNegative := NEGATIVE_INDICATORS.any (fun n => subStr n contextLower)
  if category = "personal_db" && dbKeywords.any (fun d => subStr d keywordLower) then
    !hasNegative
  else
    (TRADE_INDICATORS.any (fun t => subStr t keywordLower) ||
      TRADE_INDICATORS.any (fun t => subStr t contextLower) ||
      ((List.lookup category REQUIRED_INDICATORS).getD []).any
        (fun r => subStr r contextLower)) &&
    !hasNegative

/-! ### Basic lemmas about the string machinery -/

theorem startsWith_length {n h : Str} (hs : startsWith n h = true) : n.length ≤ h.length := by
  induction n generalizing h with
  | nil => simp
  | cons c cs ih =>
    cases h with
    | nil => simp [startsWith] at hs
    | cons x xs =>
      simp only [startsWith, Bool.and_eq_true] at hs
      simpa using ih hs.2

theorem findInSuffix_bounds {n s : Str} {k : Nat} (hf : findInSuffix n s = some k) :
    k + n.length ≤ s.length := by
  induction s generalizing k with
  | nil =>
    simp only [findInSuffix] at hf
    rcases n with _ | _
    · simp_all
    · simp at hf
  | cons c cs ih =>
    simp only [findInSuffix] at hf
    by_cases hp : startsWith n (c :: cs) = true
    · simp only [hp, if_pos] at hf
      obtain rfl : (0 : Nat) = k := by simpa using hf
      simpa using startsWith_length hp
    · simp only [hp] at hf
      simp only [Bool.false_eq_true, if_false, Option.map_eq_some'] at hf
      obtain ⟨k', hk', rfl⟩ := hf
      have := ih hk'
      simp only [List.length_cons]
      omega

theorem findFrom_bounds {hay n : Str} {start p : Nat}
    (hf : findFrom hay n start = some p) :
    start ≤ p ∧ p + n.length ≤ hay.length := by
  unfold findFrom at hf
  by_cases hle : start ≤ hay.length
  · simp only [hle, if_pos, Option.map_eq_some'] at hf
    obtain ⟨k, hk, rfl⟩ := hf
    have hb := findInSuffix_bounds hk
    rw [List.length_drop] at hb
    omega
  · simp [hle] at hf

theorem matchLits_length {g s r : Str} (hm : matchLits g s = some r) :
    r.length + g.length = s.length := by
  induction g generalizing s with
  | nil => simp only [matchLits, Option.some_inj] at hm; subst hm; simp
  | cons c cs ih =>
    cases s with
    | nil => simp [matchLits] at hm
    | cons x xs =>
      simp only [matchLits] at hm
      by_cases hc : lowerChar x = lowerChar c
      · simp only [hc, if_pos] at hm
        have := ih hm
        simp only [List.length_cons]
        omega
      · simp [hc] at hm

theorem dropWs_length (s : Str) : (dropWs s).length ≤ s.length := by
  induction s with
  | nil => simp [dropWs]
  | cons c cs ih =>
    simp only [dropWs]
    by_cases h : isWsChar c = true
    · simp only [h, if_pos]
      simp only [List.length_cons]
      omega
    · simp [h]

theorem matchGroupsRest_length {gs : List Str} {s r : Str}
    (hm : matchGroupsRest gs s = some r) :
    (gs.map List.length).sum + r.length ≤ s.length := by
  induction gs generalizing s with
  | nil => simp only [matchGroupsRest, Option.some_inj] at hm; subst hm; simp
  | cons g gs ih =>
    cases gs with
    | nil =>
      simp only [matchGroupsRest] at hm
      have := matchLits_length hm
      simp only [List.map_cons, List.map_nil, List.sum_cons, List.sum_nil]
      omega
    | cons g' gs' =>
      simp only [matchGroupsRest] at hm
      cases hml : matchLits g s with
      | none => simp [hml] at hm
      | some rest =>
        simp only [hml] at hm
        have h1 := matchLits_length hml
        have h2 := ih hm
        have h3 := dropWs_length rest
        simp only [List.map_cons, List.sum_cons] at h2 ⊢
        omega

theorem subWsAux_length {groups : List Str} {rep : Str}
    (hc : ∀ s r : Str, matchGroupsRest groups s = some r →
      rep.length + r.length ≤ s.length) :
    ∀ (fuel : Nat) (s : Str), (subWsAux groups rep fuel s).length ≤ s.length := by
  intro fuel
  induction fuel with
  | zero => intro s; simp [subWsAux]
  | succ f ih =>
    intro s
    cases s with
    | nil => simp [subWsAux]
    | cons c cs =>
      simp only [subWsAux]
      cases hm : matchGroupsRest groups (c :: cs) with
      | none =>
        simp only [List.length_cons]
        have := ih cs
        omega
      | some rest =>
        simp only
        by_cases hlt : rest.length < (c :: cs).length
        · rw [if_pos hlt]
          have h1 := hc _ _ hm
          have h2 := ih rest
          rw [List.length_append]
          omega
        · rw [if_neg hlt]
          simp only [List.length_cons]
          have := ih cs
          omega

theorem subWs_length_rule1 (s : Str) :
    (subWs [['디'], ['비']] ['D', 'B'] s).length ≤ s.length := by
  apply subWsAux_length
  intro s' r hm
  have := matchGroupsRest_length hm
  simpa using this

theorem subWs_length_rule2 (s : Str) :
    (subWs [['아', '이'], ['디']] ['I', 'D'] s).length ≤ s.length := by
  apply subWsAux_length
  intro s' r hm
  have := matchGroupsRest_length hm
  simp at this
  simpa using Nat.le_trans (by omega) this

theorem applyAliases_length (s : Str) : (applyAliases s).length ≤ s.length := by
  unfold applyAliases ALIAS_MAPPINGS
  simp only [List.foldl_cons, List.foldl_nil]
  exact Nat.le_trans (subWs_length_rule2 _) (subWs_length_rule1 s)

/-! ### Lemmas about `buildNormMap` -/

theorem buildNormMapAux_len_eq (t : Str) (i : Nat) :
    (buildNormMapAux t i).1.length = (buildNormMapAux t i).2.length := by
  induction t generalizing i with
  | nil => simp [buildNormMapAux]
  | cons c cs ih =>
    simp only [buildNormMapAux]
    by_cases h : isSepChar c = true
    · simp only [h, if_pos]; exact ih (i + 1)
    · simp only [h, Bool.false_eq_true, if_false, List.length_cons]
      simp [ih (i + 1)]

theorem buildNormMapAux_mem_bounds (t : Str) (i : Nat) :
    ∀ j ∈ (buildNormMapAux t i).2, i ≤ j ∧ j < i + t.length := by
  induction t generalizing i with
  | nil => simp [buildNormMapAux]
  | cons c cs ih =>
    intro j hj
    simp only [buildNormMapAux] at hj
    by_cases h : isSepChar c = true
    · simp only [h, if_pos] at hj
      have := ih (i + 1) j hj
      simp only [List.length_cons]
      omega
    · simp only [h, Bool.false_eq_true, if_false, List.mem_cons] at hj
      rcases hj with rfl | hj
      · simp only [List.length_cons]; omega
      · have := ih (i + 1) j hj
        simp only [List.length_cons]
        omega

theorem buildNormMapAux_pairwise (t : Str) (i : Nat) :
    ((buildNormMapAux t i).2).Pairwise (· < ·) := by
  induction t generalizing i with
  | nil => simp [buildNormMapAux]
  | cons c cs ih =>
    simp only [buildNormMapAux]
    by_cases h : isSepChar c = true
    · simp only [h, if_pos]; exact ih (i + 1)
    · simp only [h, Bool.false_eq_true, if_false]
      refine List.Pairwise.cons ?_ (ih (i + 1))
      intro j hj
      have := buildNormMapAux_mem_bounds cs (i + 1) j hj
      omega

theorem buildNormMap_len_eq (text : Str) :
    (buildNormMap text).1.length = (buildNormMap text).2.length :=
  buildNormMapAux_len_eq _ 0

theorem buildNormMap_mem_bounds {text : Str} :
    ∀ j ∈ (buildNormMap text).2, j < text.length := by
  intro j hj
  have h1 := buildNormMapAux_mem_bounds (applyAliases text) 0 j hj
  have h2 := applyAliases_length text
  omega

theorem buildNormMap_pairwise (text : Str) :
    ((buildNormMap text).2).Pairwise (· < ·) :=
  buildNormMapAux_pairwise _ 0

/-! ### Lemmas about `pyGet` and the index map -/

theorem pyGet_ofNat {l : List Nat} {n : Nat} (hn : n < l.length) :
    pyGet l (n : Int) = .ok (l.getD n 0) := by
  simp only [pyGet]
  rw [if_neg (by omega : ¬ ((n : Int) < 0))]
  rw [if_pos (by constructor <;> omega)]
  simp

theorem getD_mem {l : List Nat} {n : Nat} (hn : n < l.length) : l.getD n 0 ∈ l := by
  rw [List.getD_eq_getElem l 0 hn]
  exact List.getElem_mem hn

theorem getD_mono {l : List Nat} (hp : l.Pairwise (· < ·)) {a b : Nat}
    (hab : a ≤ b) (hb : b < l.length) : l.getD a 0 ≤ l.getD b 0 := by
  rcases Nat.eq_or_lt_of_le hab with rfl | hlt
  · exact Nat.le_refl _
  · have ha : a < l.length := Nat.lt_trans hlt hb
    rw [List.getD_eq_getElem l 0 ha, List.getD_eq_getElem l 0 hb]
    have := List.pairwise_iff_get.mp hp ⟨a, ha⟩ ⟨b, hb⟩ hlt
    simp only [List.get_eq_getElem] at this
    exact Nat.le_of_lt this

/-! ### Soundness of the exact-scan loop -/

theorem scanNeedle_spans {catPats : List (String × List CatPat)} {enableSec : Bool}
    {text normText : Str} {idxMap : List Nat} {cat : String} {item : NormItem}
    (hlen : normText.length = idxMap.length)
    (hmem : ∀ j ∈ idxMap, j < text.length)
    (hpw : idxMap.Pairwise (· < ·))
    (hnn : item.norm ≠ []) :
    ∀ (fuel start : Nat) (hits : List Hit),
      scanNeedle catPats enableSec text normText idxMap cat item fuel start = .ok hits →
      ∀ h ∈ hits, h.start_position < h.end_position ∧ h.end_position ≤ text.length := by
  intro fuel
  induction fuel with
  | zero => intro start hits hscan; simp [scanNeedle] at hscan
  | succ f ih =>
    intro start hits hscan
    rw [scanNeedle] at hscan
    cases hf : findFrom normText item.norm start with
    | none => rw [hf] at hscan; simp at hscan; subst hscan; simp
    | some pos =>
      rw [hf] at hscan
      have hb := findFrom_bounds hf
      have hL : 1 ≤ item.norm.length := by
        cases hnorm : item.norm with
        | nil => exact absurd hnorm hnn
        | cons a l => simp [hnorm]
      have hpos : pos < idxMap.length := by omega
      have hpos2 : pos + item.norm.length - 1 < idxMap.length := by omega
      have hcast : ((pos + item.norm.length : Nat) : Int) - 1
          = ((pos + item.norm.length - 1 : Nat) : Int) := by omega
      simp only at hscan
      rw [hcast, pyGet_ofNat hpos, pyGet_ofNat hpos2] at hscan
      simp only at hscan
      set os := idxMap.getD pos 0 with hos
      set oe0 := idxMap.getD (pos + item.norm.length - 1) 0 with hoe0
      have hmono : os ≤ oe0 := getD_mono hpw (by omega) hpos2
      have hoe0mem : oe0 ∈ idxMap := getD_mem hpos2
      have hoe0lt : oe0 < text.length := hmem _ hoe0mem
      cases hkeep : (if enableSec then
          passesSecondaryFilter catPats item.raw
            ((text.drop os).take (oe0 + 1 - os)) text os (oe0 + 1) cat
        else .ok true) with
      | error err => rw [hkeep] at hscan; simp at hscan
      | ok b =>
        rw [hkeep] at hscan
        simp only at hscan
        cases hrec : scanNeedle catPats enableSec text normText idxMap cat item f
            (pos + item.norm.length) with
        | error err => rw [hrec] at hscan; simp at hscan
        | ok rest =>
          rw [hrec] at hscan
          simp only [Except.ok.injEq] at hscan
          subst hscan
          intro h hh
          by_cases hbv : b = true
          · subst hbv
            simp only [if_pos] at hh
            rcases List.mem_cons.mp hh with rfl | hh
            · constructor
              · simp only [mkHit]; omega
              · simp only [mkHit]; omega
            · exact ih _ _ hrec h hh
          · simp only [Bool.not_eq_true] at hbv
            subst hbv
            simp only [Bool.false_eq_true, if_false] at hh
            exact ih _ _ hrec h hh

/-! ### The secondary filter can only fault through the regex engine -/

theorem matchCategoryPatternGo_err {kwL txtL txt : Str} {pats : List CatPat} {e : DetErr}
    (h : matchCategoryPatternGo kwL txtL txt pats = .error e) : e = .regexFault := by
  induction pats with
  | nil => simp [matchCategoryPatternGo] at h
  | cons p rest ih =>
    cases p with
    | malformed =>
      simp only [matchCategoryPatternGo, Except.error.injEq] at h
      exact h.symm
    | lit q =>
      simp only [matchCategoryPatternGo] at h
      by_cases h1 : subStr q kwL = true
      · rw [if_pos h1] at h
        by_cases h2 : subStr q txtL = true
        · rw [if_pos h2] at h; simp at h
        · rw [if_neg h2] at h; exact ih h
      · rw [if_neg h1] at h; exact ih h

theorem matchCategoryPattern_err {kw txt : Str} {pats : List CatPat} {e : DetErr}
    (h : matchCategoryPattern kw txt pats = .error e) : e = .regexFault := by
  unfold matchCategoryPattern at h
  cases hg : matchCategoryPatternGo (kw.map lowerChar) (txt.map lowerChar) txt pats with
  | error e' =>
    rw [hg] at h
    simp only [Except.error.injEq] at h
    subst h
    exact matchCategoryPatternGo_err hg
  | ok o => rw [hg] at h; cases o <;> simp at h

theorem isExactKeywordPattern_err {catPats : List (String × List CatPat)} {kw text : Str}
    {s e : Nat} {cat : String} {err : DetErr}
    (h : isExactKeywordPattern catPats kw text s e cat = .error err) : err = .regexFault := by
  unfold isExactKeywordPattern at h
  cases hl : List.lookup cat catPats with
  | none => rw [hl] at h; simp at h
  | some pats =>
    rw [hl] at h
    cases pats with
    | nil => simp at h
    | cons p ps => exact matchCategoryPattern_err h

theorem passesSecondaryFilter_err {catPats : List (String × List CatPat)}
    {kw mt fullText : Str} {s e : Nat} {cat : String} {err : DetErr}
    (h : passesSecondaryFilter catPats kw mt fullText s e cat = .error err) :
    err = .regexFault := by
  unfold passesSecondaryFilter at h
  cases hx : isExactKeywordPattern catPats kw fullText s e cat with
  | error e' =>
    rw [hx] at h
    simp only [Except.error.injEq] at h
    subst h
    exact isExactKeywordPattern_err hx
  | ok b => rw [hx] at h; cases b <;> simp at h

/-! ### The exact-scan path never raises an IndexError -/

theorem scanNeedle_not_indexFault {catPats : List (String × List CatPat)} {enableSec : Bool}
    {text normText : Str} {idxMap : List Nat} {cat : String} {item : NormItem}
    (hlen : normText.length = idxMap.length) (hnn : item.norm ≠ []) :
    ∀ (fuel start : Nat),
      scanNeedle catPats enableSec text normText idxMap cat item fuel start ≠
        .error .indexFault := by
  intro fuel
  induction fuel with
  | zero => intro start h; simp [scanNeedle] at h
  | succ f ih =>
    intro start h
    rw [scanNeedle] at h
    cases hf : findFrom normText item.norm start with
    | none => rw [hf] at h; simp at h
    | some pos =>
      rw [hf] at h
      have hb := findFrom_bounds hf
      have hL : 1 ≤ item.norm.length := by
        cases hnorm : item.norm with
        | nil => exact absurd hnorm hnn
        | cons a l => simp [hnorm]
      have hpos : pos < idxMap.length := by omega
      have hpos2 : pos + item.norm.length - 1 < idxMap.length := by omega
      have hcast : ((pos + item.norm.length : Nat) : Int) - 1
          = ((pos + item.norm.length - 1 : Nat) : Int) := by omega
      simp only at h
      rw [hcast, pyGet_ofNat hpos, pyGet_ofNat hpos2] at h
      simp only at h
      set os := idxMap.getD pos 0
      set oe0 := idxMap.getD (pos + item.norm.length - 1) 0
      cases hkeep : (if enableSec then
          passesSecondaryFilter catPats item.raw
            ((text.drop os).take (oe0 + 1 - os)) text os (oe0 + 1) cat
        else .ok true) with
      | error err =>
        rw [hkeep] at h
        simp only [Except.error.injEq] at h
        have herr : err = .regexFault := by
          by_cases hsec : enableSec = true
          · rw [if_pos hsec] at hkeep
            exact passesSecondaryFilter_err hkeep
          · rw [if_neg hsec] at hkeep; simp at hkeep
        rw [herr] at h
        exact absurd h.symm (by simp)
      | ok b =>
        rw [hkeep] at h
        simp only at h
        cases hrec : scanNeedle catPats enableSec text normText idxMap cat item f
            (pos + item.norm.length) with
        | error err =>
          rw [hrec] at h
          simp only [Except.error.injEq] at h
          rw [h] at hrec
          exact ih _ hrec
        | ok rest => rw [hrec] at h; simp at h

theorem scanItems_not_indexFault {catPats : List (String × List CatPat)} {enableSec : Bool}
    {text normText : Str} {idxMap : List Nat} {cat : String}
    (hlen : normText.length = idxMap.length) :
    ∀ (items : List NormItem), (∀ it ∈ items, it.norm ≠ []) →
      scanItems catPats enableSec text normText idxMap cat items ≠ .error .indexFault := by
  intro items
  induction items with
  | nil => intro _ h; simp [scanItems] at h
  | cons item rest ih =>
    intro hnn h
    rw [scanItems] at h
    cases hs : scanNeedle catPats enableSec text normText idxMap cat item
        (normText.length + 2) 0 with
    | error err =>
      rw [hs] at h
      simp only [Except.error.injEq] at h
      rw [h] at hs
      exact scanNeedle_not_indexFault hlen (hnn item (by simp)) _ _ hs
    | ok hs1 =>
      rw [hs] at h
      simp only at h
      cases hr : scanItems catPats enableSec text normText idxMap cat rest with
      | error err =>
        rw [hr] at h
        simp only [Except.error.injEq] at h
        rw [h] at hr
        exact ih (fun it hit => hnn it (by simp [hit])) hr
      | ok hs2 => rw [hr] at h; simp at h

theorem detectExactGo_not_indexFault {catPats : List (String × List CatPat)}
    {fp : List (String × List Str)} {enableSec : Bool} {text normText : Str}
    {idxMap : List Nat} (hlen : normText.length = idxMap.length) :
    ∀ (compiled : List (String × List NormItem)),
      (∀ pr ∈ compiled, ∀ it ∈ pr.2, it.norm ≠ []) →
      detectExactGo catPats fp enableSec text normText idxMap compiled ≠
        .error .indexFault := by
  intro compiled
  induction compiled with
  | nil => intro _ h; simp [detectExactGo] at h
  | cons pr rest ih =>
    intro hnn h
    obtain ⟨cat, items⟩ := pr
    rw [detectExactGo] at h
    cases hs : scanItems catPats enableSec text normText idxMap cat items with
    | error err =>
      rw [hs] at h
      simp only [Except.error.injEq] at h
      rw [h] at hs
      exact scanItems_not_indexFault hlen items
        (fun it hit => hnn (cat, items) (by simp) it hit) hs
    | ok hs1 =>
      rw [hs] at h
      simp only at h
      cases hr : detectExactGo catPats fp enableSec text normText idxMap rest with
      | error err =>
        rw [hr] at h
        simp only [Except.error.injEq] at h
        rw [h] at hr
        exact ih (fun q hq it hit => hnn q (by simp [hq]) it hit) hr
      | ok tail => rw [hr] at h; simp at h

/-! ### The combination path never raises an IndexError -/

theorem combHitsForKw_not_indexFault {catPats : List (String × List CatPat)}
    {enableSec : Bool} {text : Str} {cat : String} {kw : Str} :
    ∀ (ps : List (Nat × Nat × Str)),
      combHitsForKw catPats enableSec text cat kw ps ≠ .error .indexFault := by
  intro ps
  induction ps with
  | nil => intro h; simp [combHitsForKw] at h
  | cons p rest ih =>
    intro h
    obtain ⟨s, e, m⟩ := p
    rw [combHitsForKw] at h
    cases hkeep : (if enableSec then passesSecondaryFilter catPats kw m text s e cat
        else .ok true) with
    | error err =>
      rw [hkeep] at h
      simp only [Except.error.injEq] at h
      have herr : err = .regexFault := by
        by_cases hsec : enableSec = true
        · rw [if_pos hsec] at hkeep; exact passesSecondaryFilter_err hkeep
        · rw [if_neg hsec] at hkeep; simp at hkeep
      rw [herr] at h
      exact absurd h.symm (by simp)
    | ok b =>
      rw [hkeep] at h
      simp only at h
      cases hr : combHitsForKw catPats enableSec text cat kw rest with
      | error err =>
        rw [hr] at h
        simp only [Except.error.injEq] at h
        rw [h] at hr
        exact ih hr
      | ok hs => rw [hr] at h; simp at h

theorem combHitsForCat_not_indexFault {catPats : List (String × List CatPat)}
    {enableSec : Bool} {text : Str} {cat : String} :
    ∀ (klist : List Str),
      combHitsForCat catPats enableSec text cat klist ≠ .error .indexFault := by
  intro klist
  induction klist with
  | nil => intro h; simp [combHitsForCat] at h
  | cons kw rest ih =>
    intro h
    rw [combHitsForCat] at h
    cases hh : (if checkFullKeywordPresence kw text then
        combHitsForKw catPats enableSec text cat kw (findKeywordPositions kw text)
      else .ok []) with
    | error err =>
      rw [hh] at h
      simp only [Except.error.injEq] at h
      rw [h] at hh
      by_cases hc : checkFullKeywordPresence kw text = true
      · rw [if_pos hc] at hh
        exact combHitsForKw_not_indexFault _ hh
      · rw [if_neg hc] at hh; simp at hh
    | ok hs =>
      rw [hh] at h
      simp only at h
      cases hr : combHitsForCat catPats enableSec text cat rest with
      | error err =>
        rw [hr] at h
        simp only [Except.error.injEq] at h
        rw [h] at hr
        exact ih hr
      | ok hs2 => rw [hr] at h; simp at h

theorem detectCombGo_not_indexFault {catPats : List (String × List CatPat)}
    {enableSec : Bool} {text : Str} :
    ∀ (illegal : List (String × List Str)),
      detectComb.go catPats enableSec text illegal ≠ .error .indexFault := by
  intro illegal
  induction illegal with
  | nil => intro h; simp [detectComb.go] at h
  | cons pr rest ih =>
    intro h
    obtain ⟨cat, klist⟩ := pr
    rw [detectComb.go] at h
    cases hs : combHitsForCat catPats enableSec text cat klist with
    | error err =>
      rw [hs] at h
      simp only [Except.error.injEq] at h
      rw [h] at hs
      exact combHitsForCat_not_indexFault _ hs
    | ok hs1 =>
      rw [hs] at h
      simp only at h
      cases hr : detectComb.go catPats enableSec text rest with
      | error err =>
        rw [hr] at h
        simp only [Except.error.injEq] at h
        rw [h] at hr
        exact ih hr
      | ok tail => rw [hr] at h; simp at h

/-! ### Compilation coverage: every keyword's normalization is compiled -/

theorem expandAliasVariants_self_mem (s : Str) : s ∈ expandAliasVariants s := by
  simp [expandAliasVariants, dedupFirst, dedupFirstAux]

theorem addVariants_acc_mono {raw : Str} :
    ∀ (vs seen : List Str) (acc : List NormItem),
      ∀ it ∈ acc, it ∈ (addVariants raw vs (seen, acc)).2 := by
  intro vs
  induction vs with
  | nil => intro seen acc it hit; simpa [addVariants] using hit
  | cons v vs ih =>
    intro seen acc it hit
    simp only [addVariants]
    by_cases hc : normalize v ≠ [] ∧ normalize v ∉ seen
    · rw [if_pos hc]
      exact ih _ _ it (by simp [hit])
    · rw [if_neg hc]
      exact ih _ _ it hit

theorem addVariants_seenInv {raw : Str} :
    ∀ (vs seen : List Str) (acc : List NormItem),
      (∀ n ∈ seen, ∃ it ∈ acc, it.norm = n) →
      ∀ n ∈ (addVariants raw vs (seen, acc)).1,
        ∃ it ∈ (addVariants raw vs (seen, acc)).2, it.norm = n := by
  intro vs
  induction vs with
  | nil =>
    intro seen acc hinv n hn
    simp only [addVariants] at hn ⊢
    exact hinv n hn
  | cons v vs ih =>
    intro seen acc hinv n hn
    simp only [addVariants] at hn ⊢
    by_cases hc : normalize v ≠ [] ∧ normalize v ∉ seen
    · rw [if_pos hc] at hn ⊢
      refine ih _ _ ?_ n hn
      intro m hm
      rcases List.mem_cons.mp hm with heq | hm
      · exact ⟨⟨normalize v, raw⟩, by simp, heq.symm⟩
      · obtain ⟨it, hit, heq⟩ := hinv m hm
        exact ⟨it, by simp [hit], heq⟩
    · rw [if_neg hc] at hn ⊢
      exact ih _ _ hinv n hn

theorem addVariants_covers {raw : Str} :
    ∀ (vs seen : List Str) (acc : List NormItem),
      (∀ n ∈ seen, ∃ it ∈ acc, it.norm = n) →
      ∀ v ∈ vs, normalize v ≠ [] →
        ∃ it ∈ (addVariants raw vs (seen, acc)).2, it.norm = normalize v := by
  intro vs
  induction vs with
  | nil => intro seen acc _ v hv; simp at hv
  | cons v0 vs ih =>
    intro seen acc hinv v hv hne
    rcases List.mem_cons.mp hv with rfl | hv
    · simp only [addVariants]
      by_cases hc : normalize v ≠ [] ∧ normalize v ∉ seen
      · rw [if_pos hc]
        exact ⟨⟨normalize v, raw⟩, addVariants_acc_mono _ _ _ _ (by simp), rfl⟩
      · rw [if_neg hc]
        push_neg at hc
        have hmem := hc hne
        obtain ⟨it, hit, heq⟩ := hinv _ hmem
        exact ⟨it, addVariants_acc_mono _ _ _ _ hit, heq⟩
    · simp only [addVariants]
      by_cases hc : normalize v0 ≠ [] ∧ normalize v0 ∉ seen
      · rw [if_pos hc]
        refine ih _ _ ?_ v hv hne
        intro m hm
        rcases List.mem_cons.mp hm with heq | hm
        · exact ⟨⟨normalize v0, raw⟩, by simp, heq.symm⟩
        · obtain ⟨it, hit, heq⟩ := hinv m hm
          exact ⟨it, by simp [hit], heq⟩
      · rw [if_neg hc]
        exact ih _ _ hinv v hv hne

theorem compileBucketGo_mono :
    ∀ (l seen : List Str) (acc : List NormItem),
      ∀ it ∈ acc, it ∈ compileBucketGo seen acc l := by
  intro l
  induction l with
  | nil => intro seen acc it hit; simpa [compileBucketGo] using hit
  | cons raw rest ih =>
    intro seen acc it hit
    simp only [compileBucketGo]
    exact ih _ _ it (addVariants_acc_mono _ _ _ it hit)

theorem compileBucketGo_covers :
    ∀ (l seen : List Str) (acc : List NormItem),
      (∀ n ∈ seen, ∃ it ∈ acc, it.norm = n) →
      ∀ raw ∈ l, normalize raw ≠ [] →
        ∃ it ∈ compileBucketGo seen acc l, it.norm = normalize raw := by
  intro l
  induction l with
  | nil => intro seen acc _ raw hraw; simp at hraw
  | cons raw0 rest ih =>
    intro seen acc hinv raw hraw hne
    rcases List.mem_cons.mp hraw with rfl | hraw
    · simp only [compileBucketGo]
      obtain ⟨it, hit, heq⟩ :=
        addVariants_covers _ _ _ hinv raw (expandAliasVariants_self_mem raw) hne
      exact ⟨it, compileBucketGo_mono _ _ _ it hit, heq⟩
    · simp only [compileBucketGo]
      exact ih _ _ (addVariants_seenInv _ _ _ hinv) raw hraw hne

theorem addVariants_nonempty {raw : Str} :
    ∀ (vs seen : List Str) (acc : List NormItem),
      (∀ it ∈ acc, it.norm ≠ []) →
      ∀ it ∈ (addVariants raw vs (seen, acc)).2, it.norm ≠ [] := by
  intro vs
  induction vs with
  | nil => intro seen acc h it hit; exact h it hit
  | cons v vs ih =>
    intro seen acc h it hit
    simp only [addVariants] at hit
    by_cases hc : normalize v ≠ [] ∧ normalize v ∉ seen
    · rw [if_pos hc] at hit
      refine ih _ _ ?_ it hit
      intro it' hit'
      rcases List.mem_append.mp hit' with hit' | hit'
      · exact h it' hit'
      · simp only [List.mem_singleton] at hit'
        subst hit'
        exact hc.1
    · rw [if_neg hc] at hit
      exact ih _ _ h it hit

theorem compileBucketGo_nonempty :
    ∀ (l seen : List Str) (acc : List NormItem),
      (∀ it ∈ acc, it.norm ≠ []) →
      ∀ it ∈ compileBucketGo seen acc l, it.norm ≠ [] := by
  intro l
  induction l with
  | nil => intro seen acc h it hit; exact h it hit
  | cons raw rest ih =>
    intro seen acc h it hit
    simp only [compileBucketGo] at hit
    exact ih _ _ (addVariants_nonempty _ _ _ h) it hit

theorem compileNormsExact_nonempty {illegal : List (String × List Str)} :
    ∀ pr ∈ compileNormsExact illegal, ∀ it ∈ pr.2, it.norm ≠ [] := by
  intro pr hpr it hit
  simp only [compileNormsExact, List.mem_map] at hpr
  obtain ⟨⟨cat, klist⟩, _, rfl⟩ := hpr
  exact compileBucketGo_nonempty _ _ _ (by simp) it hit

theorem compileNormsExact_covers {illegal : List (String × List Str)}
    {cat : String} {klist : List Str} (hmem : (cat, klist) ∈ illegal)
    {k : Str} (hk : k ∈ klist) (hne : normalize k ≠ []) :
    ∃ bucket, (cat, bucket) ∈ compileNormsExact illegal ∧
      ∃ it ∈ bucket, it.norm = normalize k := by
  refine ⟨compileBucketGo [] [] klist, ?_, ?_⟩
  · simp only [compileNormsExact, List.mem_map]
    exact ⟨(cat, klist), hmem, rfl⟩
  · exact compileBucketGo_covers _ _ _ (by simp) k hk hne

/-! ### Adequacy of the scan fuel with the secondary filter disabled -/

theorem subStr_findFrom {n h : Str} (hs : subStr n h = true) :
    ∃ p, findFrom h n 0 = some p := by
  unfold subStr at hs
  cases hf : findInSuffix n h with
  | none => rw [hf] at hs; simp at hs
  | some k =>
    refine ⟨k, ?_⟩
    unfold findFrom
    rw [if_pos (by omega)]
    simp [hf]

theorem scanNeedle_noSec_ok (catPats : List (String × List CatPat))
    {text normText : Str} {idxMap : List Nat} (cat : String) {item : NormItem}
    (hlen : normText.length = idxMap.length) (hnn : item.norm ≠ []) :
    ∀ (fuel start : Nat), start ≤ normText.length →
      normText.length + 1 ≤ fuel + start →
      ∃ hits, scanNeedle catPats false text normText idxMap cat item fuel start = .ok hits ∧
        (∀ pos, findFrom normText item.norm start = some pos → hits ≠ []) := by
  intro fuel
  induction fuel with
  | zero => intro start h1 h2; omega
  | succ f ih =>
    intro start h1 h2
    rw [scanNeedle]
    cases hf : findFrom normText item.norm start with
    | none => exact ⟨[], by simp, by simp [hf]⟩
    | some pos =>
      have hb := findFrom_bounds hf
      have hL : 1 ≤ item.norm.length := by
        cases hnorm : item.norm with
        | nil => exact absurd hnorm hnn
        | cons a l => simp [hnorm]
      have hpos : pos < idxMap.length := by omega
      have hpos2 : pos + item.norm.length - 1 < idxMap.length := by omega
      have hcast : ((pos + item.norm.length : Nat) : Int) - 1
          = ((pos + item.norm.length - 1 : Nat) : Int) := by omega
      simp only
      rw [hcast, pyGet_ofNat hpos, pyGet_ofNat hpos2]
      simp only [Bool.false_eq_true, if_false]
      obtain ⟨rest, hrest, -⟩ := ih (pos + item.norm.length) (by omega) (by omega)
      rw [hrest]
      exact ⟨_, rfl, fun _ _ => by simp⟩

theorem scanItems_noSec_ok (catPats : List (String × List CatPat))
    {text normText : Str} {idxMap : List Nat} (cat : String)
    (hlen : normText.length = idxMap.length) :
    ∀ (items : List NormItem), (∀ it ∈ items, it.norm ≠ []) →
      ∃ hs, scanItems catPats false text normText idxMap cat items = .ok hs ∧
        (∀ it ∈ items, subStr it.norm normText = true → hs ≠ []) := by
  intro items
  induction items with
  | nil => exact fun _ => ⟨[], by simp [scanItems], by simp⟩
  | cons item rest ih =>
    intro hnn
    obtain ⟨h1, hh1, hne1⟩ :=
      scanNeedle_noSec_ok catPats cat hlen
        (hnn item (by simp)) (normText.length + 2) 0 (by omega) (by omega)
    obtain ⟨hs2, hh2, hne2⟩ := ih (fun it hit => hnn it (by simp [hit]))
    refine ⟨h1 ++ hs2, ?_, ?_⟩
    · rw [scanItems, hh1, hh2]
    · intro it hit hsub
      rcases List.mem_cons.mp hit with rfl | hit
      · obtain ⟨p, hp⟩ := subStr_findFrom hsub
        have := hne1 p hp
        simp [this]
      · have := hne2 it hit hsub
        simp [this]

/-! ### Lemmas about the deduplicator -/

theorem hitLexLE_total (a b : Hit) : hitLexLE a b = true ∨ hitLexLE b a = true := by
  simp only [hitLexLE, Bool.or_eq_true, Bool.and_eq_true, decide_eq_true_eq]
  omega

theorem hitLexLE_trans {a b c : Hit} (h1 : hitLexLE a b = true) (h2 : hitLexLE b c = true) :
    hitLexLE a c = true := by
  simp only [hitLexLE, Bool.or_eq_true, Bool.and_eq_true, decide_eq_true_eq] at h1 h2 ⊢
  omega

theorem overlap_comm (a b : Hit) :
    isOverlappingOrContained a b = isOverlappingOrContained b a := by
  simp only [isOverlappingOrContained]
  by_cases h1 : a.end_position ≤ b.start_position <;>
    by_cases h2 : b.end_position ≤ a.start_position <;> simp [h1, h2]

theorem samePos_refl (a : Hit) : samePos a a = true := by simp [samePos]

theorem mem_insertHit {a x : Hit} : ∀ {l : List Hit}, a ∈ insertHit x l ↔ a = x ∨ a ∈ l := by
  intro l
  induction l with
  | nil => simp [insertHit]
  | cons y ys ih =>
    simp only [insertHit]
    by_cases h : hitLexLE y x = true
    · rw [if_pos h]
      simp only [List.mem_cons, ih]
      tauto
    · rw [if_neg h]
      simp [List.mem_cons]

theorem insertHit_pairwise {x : Hit} :
    ∀ {l : List Hit}, l.Pairwise (fun a b => hitLexLE a b = true) →
      (insertHit x l).Pairwise (fun a b => hitLexLE a b = true) := by
  intro l
  induction l with
  | nil => intro _; simp [insertHit]
  | cons y ys ih =>
    intro hp
    rw [List.pairwise_cons] at hp
    simp only [insertHit]
    by_cases h : hitLexLE y x = true
    · rw [if_pos h]
      rw [List.pairwise_cons]
      refine ⟨?_, ih hp.2⟩
      intro a ha
      rcases mem_insertHit.mp ha with rfl | ha
      · exact h
      · exact hp.1 a ha
    · rw [if_neg h]
      have hxy : hitLexLE x y = true := by
        rcases hitLexLE_total x y with h' | h'
        · exact h'
        · exact absurd h' h
      rw [List.pairwise_cons]
      constructor
      · intro a ha
        rcases List.mem_cons.mp ha with rfl | ha
        · exact hxy
        · exact hitLexLE_trans hxy (hp.1 a ha)
      · exact List.pairwise_cons.mpr hp

theorem foldl_insertHit_mem {a : Hit} :
    ∀ (l acc : List Hit), a ∈ l.foldl (fun acc x => insertHit x acc) acc ↔ a ∈ acc ∨ a ∈ l := by
  intro l
  induction l with
  | nil => simp
  | cons x xs ih =>
    intro acc
    simp only [List.foldl_cons]
    rw [ih]
    simp only [mem_insertHit, List.mem_cons]
    tauto

theorem sortHits_mem {a : Hit} {l : List Hit} : a ∈ sortHits l ↔ a ∈ l := by
  unfold sortHits
  rw [foldl_insertHit_mem]
  simp

theorem sortHits_pairwise (l : List Hit) :
    (sortHits l).Pairwise (fun a b => hitLexLE a b = true) := by
  unfold sortHits
  suffices h : ∀ (l acc : List Hit), acc.Pairwise (fun a b => hitLexLE a b = true) →
      (l.foldl (fun acc x => insertHit x acc) acc).Pairwise (fun a b => hitLexLE a b = true) by
    exact h l [] (by simp)
  intro l
  induction l with
  | nil => intro acc h; simpa using h
  | cons x xs ih =>
    intro acc h
    simp only [List.foldl_cons]
    exact ih _ (insertHit_pairwise h)

theorem sortHits_ne {l : List Hit} (h : l ≠ []) : sortHits l ≠ [] := by
  cases l with
  | nil => exact absurd rfl h
  | cons x xs =>
    intro hs
    have : x ∈ sortHits (x :: xs) := sortHits_mem.mpr (by simp)
    rw [hs] at this
    simp at this

theorem dedupLoop_sublist {cur : Hit} :
    ∀ (copy unique u : List Hit) (b : Bool),
      dedupLoop cur copy unique = (u, b) → u.Sublist unique := by
  intro copy
  induction copy with
  | nil =>
    intro unique u b h
    simp only [dedupLoop, Prod.mk.injEq] at h
    rw [← h.1]
  | cons e rest ih =>
    intro unique u b h
    simp only [dedupLoop] at h
    by_cases hsp : samePos cur e = true
    · rw [if_pos hsp] at h
      by_cases hlt : e.keyword.length < cur.keyword.length
      · rw [if_pos hlt] at h
        exact (ih _ _ _ h).trans (List.erase_sublist e unique)
      · rw [if_neg hlt] at h
        simp only [Prod.mk.injEq] at h
        rw [← h.1]
    · rw [if_neg hsp] at h
      by_cases hov : isOverlappingOrContained cur e = true
      · rw [if_pos hov] at h
        by_cases hlt : e.keyword.length < cur.keyword.length
        · rw [if_pos hlt] at h
          exact (ih _ _ _ h).trans (List.erase_sublist e unique)
        · rw [if_neg hlt] at h
          simp only [Prod.mk.injEq] at h
          rw [← h.1]
      · rw [if_neg hov] at h
        exact ih _ _ _ h

theorem dedupLoop_true_disj {cur : Hit} :
    ∀ (copy unique u : List Hit), unique.Nodup →
      dedupLoop cur copy unique = (u, true) →
      ∀ e ∈ u, e ∈ copy →
        samePos cur e = false ∧ isOverlappingOrContained cur e = false := by
  intro copy
  induction copy with
  | nil => intro unique u hnd h e he hec; simp at hec
  | cons e0 rest ih =>
    intro unique u hnd h e he hec
    simp only [dedupLoop] at h
    by_cases hsp : samePos cur e0 = true
    · rw [if_pos hsp] at h
      by_cases hlt : e0.keyword.length < cur.keyword.length
      · rw [if_pos hlt] at h
        rcases List.mem_cons.mp hec with rfl | hec
        · exfalso
          have hsub := dedupLoop_sublist _ _ _ _ h
          have : e ∈ unique.erase e := hsub.subset he
          exact (hnd.not_mem_erase) this
        · exact ih _ _ (hnd.erase e0) h e he hec
      · rw [if_neg hlt] at h
        simp at h
    · rw [if_neg hsp] at h
      by_cases hov : isOverlappingOrContained cur e0 = true
      · rw [if_pos hov] at h
        by_cases hlt : e0.keyword.length < cur.keyword.length
        · rw [if_pos hlt] at h
          rcases List.mem_cons.mp hec with rfl | hec
          · exfalso
            have hsub := dedupLoop_sublist _ _ _ _ h
            have : e ∈ unique.erase e := hsub.subset he
            exact (hnd.not_mem_erase) this
          · exact ih _ _ (hnd.erase e0) h e he hec
        · rw [if_neg hlt] at h
          simp at h
      · rw [if_neg hov] at h
        rcases List.mem_cons.mp hec with rfl | hec
        · exact ⟨Bool.not_eq_true _ ▸ hsp, Bool.not_eq_true _ ▸ hov⟩
        · exact ih _ _ hnd h e he hec

theorem dedupLoop_false_ne {cur : Hit} :
    ∀ (copy unique u : List Hit), copy.Nodup → (∀ x ∈ copy, x ∈ unique) →
      dedupLoop cur copy unique = (u, false) → u ≠ [] := by
  intro copy
  induction copy with
  | nil => intro unique u _ _ h; simp [dedupLoop] at h
  | cons e0 rest ih =>
    intro unique u hnd hcu h
    have he0u : e0 ∈ unique := hcu e0 (by simp)
    simp only [dedupLoop] at h
    by_cases hsp : samePos cur e0 = true
    · rw [if_pos hsp] at h
      by_cases hlt : e0.keyword.length < cur.keyword.length
      · rw [if_pos hlt] at h
        refine ih _ _ ((List.nodup_cons.mp hnd).2) ?_ h
        intro x hx
        have hne : x ≠ e0 := by
          intro hxe
          exact (List.nodup_cons.mp hnd).1 (hxe ▸ hx)
        exact (List.mem_erase_of_ne hne).mpr (hcu x (by simp [hx]))
      · rw [if_neg hlt] at h
        simp only [Prod.mk.injEq] at h
        rw [← h.1]
        intro hu
        rw [hu] at he0u
        simp at he0u
    · rw [if_neg hsp] at h
      by_cases hov : isOverlappingOrContained cur e0 = true
      · rw [if_pos hov] at h
        by_cases hlt : e0.keyword.length < cur.keyword.length
        · rw [if_pos hlt] at h
          refine ih _ _ ((List.nodup_cons.mp hnd).2) ?_ h
          intro x hx
          have hne : x ≠ e0 := by
            intro hxe
            exact (List.nodup_cons.mp hnd).1 (hxe ▸ hx)
          exact (List.mem_erase_of_ne hne).mpr (hcu x (by simp [hx]))
        · rw [if_neg hlt] at h
          simp only [Prod.mk.injEq] at h
          rw [← h.1]
          intro hu
          rw [hu] at he0u
          simp at he0u
      · rw [if_neg hov] at h
        exact ih _ _ ((List.nodup_cons.mp hnd).2) (fun x hx => hcu x (by simp [hx])) h

theorem dedupStep_mem {unique : List Hit} {cur x : Hit}
    (hx : x ∈ dedupStep unique cur) : x ∈ unique ∨ x = cur := by
  unfold dedupStep at hx
  cases hd : dedupLoop cur unique unique with
  | mk u b =>
    rw [hd] at hx
    have hsub := dedupLoop_sublist _ _ _ _ hd
    cases b with
    | true =>
      simp only at hx
      rcases List.mem_append.mp hx with hx | hx
      · exact Or.inl (hsub.subset hx)
      · simp only [List.mem_singleton] at hx
        exact Or.inr hx
    | false =>
      simp only at hx
      exact Or.inl (hsub.subset hx)

theorem dedupStep_ne {unique : List Hit} {cur : Hit} (hnd : unique.Nodup) :
    dedupStep unique cur ≠ [] := by
  unfold dedupStep
  cases hd : dedupLoop cur unique unique with
  | mk u b =>
    cases b with
    | true => simp
    | false =>
      simp only
      exact dedupLoop_false_ne _ _ _ hnd (fun x hx => hx) hd

theorem dedupStep_nodup {unique : List Hit} {cur : Hit} (hnd : unique.Nodup) :
    (dedupStep unique cur).Nodup := by
  unfold dedupStep
  cases hd : dedupLoop cur unique unique with
  | mk u b =>
    have hsub := dedupLoop_sublist _ _ _ _ hd
    have hund : u.Nodup := hsub.nodup hnd
    cases b with
    | true =>
      simp only
      rw [List.nodup_append]
      refine ⟨hund, by simp, ?_⟩
      intro x hx hx2
      simp only [List.mem_singleton] at hx2
      subst hx2
      have hxu : x ∈ unique := hsub.subset hx
      have := (dedupLoop_true_disj _ _ _ hnd hd x hx hxu).1
      rw [samePos_refl] at this
      simp at this
    | false => simpa using hund

theorem dedupStep_pairwise_disj {unique : List Hit} (cur : Hit) (hnd : unique.Nodup)
    (hp : unique.Pairwise (fun a b => isOverlappingOrContained a b = false)) :
    (dedupStep unique cur).Pairwise (fun a b => isOverlappingOrContained a b = false) := by
  unfold dedupStep
  cases hd : dedupLoop cur unique unique with
  | mk u b =>
    have hsub := dedupLoop_sublist _ _ _ _ hd
    have hup : u.Pairwise (fun a b => isOverlappingOrContained a b = false) :=
      hp.sublist hsub
    cases b with
    | true =>
      simp only
      rw [List.pairwise_append]
      refine ⟨hup, by simp, ?_⟩
      intro a ha b hb
      simp only [List.mem_singleton] at hb
      subst hb
      have hau : a ∈ unique := hsub.subset ha
      have := (dedupLoop_true_disj _ _ _ hnd hd a ha hau).2
      rw [overlap_comm]
      exact this
    | false => simpa using hup

theorem dedupStep_sorted {unique : List Hit} {cur : Hit}
    (hp : unique.Pairwise (fun a b => hitLexLE a b = true))
    (hle : ∀ e ∈ unique, hitLexLE e cur = true) :
    (dedupStep unique cur).Pairwise (fun a b => hitLexLE a b = true) := by
  unfold dedupStep
  cases hd : dedupLoop cur unique unique with
  | mk u b =>
    have hsub := dedupLoop_sublist _ _ _ _ hd
    have hup : u.Pairwise (fun a b => hitLexLE a b = true) := hp.sublist hsub
    cases b with
    | true =>
      simp only
      rw [List.pairwise_append]
      refine ⟨hup, by simp, ?_⟩
      intro a ha b hb
      simp only [List.mem_singleton] at hb
      subst hb
      exact hle a (hsub.subset ha)
    | false => simpa using hup

theorem foldl_dedup_inv :
    ∀ (l acc : List Hit), acc.Nodup →
      acc.Pairwise (fun a b => isOverlappingOrContained a b = false) →
      acc.Pairwise (fun a b => hitLexLE a b = true) →
      (∀ x ∈ acc, ∀ y ∈ l, hitLexLE x y = true) →
      l.Pairwise (fun a b => hitLexLE a b = true) →
      (l.foldl dedupStep acc).Nodup ∧
        (l.foldl dedupStep acc).Pairwise (fun a b => isOverlappingOrContained a b = false) ∧
        (l.foldl dedupStep acc).Pairwise (fun a b => hitLexLE a b = true) ∧
        (∀ x ∈ l.foldl dedupStep acc, x ∈ acc ∨ x ∈ l) ∧
        ((acc ≠ [] ∨ l ≠ []) → l.foldl dedupStep acc ≠ []) := by
  intro l
  induction l with
  | nil =>
    intro acc h1 h2 h3 _ _
    simp only [List.foldl_nil]
    exact ⟨h1, h2, h3, fun x hx => Or.inl hx, fun h => by tauto⟩
  | cons cur rest ih =>
    intro acc h1 h2 h3 hcross hl
    simp only [List.foldl_cons]
    rw [List.pairwise_cons] at hl
    have hstep1 : (dedupStep acc cur).Nodup := dedupStep_nodup h1
    have hstep2 := dedupStep_pairwise_disj cur h1 h2
    have hstep3 := dedupStep_sorted h3 (fun e he => hcross e he cur (by simp))
    have hstepcross : ∀ x ∈ dedupStep acc cur, ∀ y ∈ rest, hitLexLE x y = true := by
      intro x hx y hy
      rcases dedupStep_mem hx with hx | rfl
      · exact hcross x hx y (by simp [hy])
      · exact hl.1 y hy
    obtain ⟨r1, r2, r3, r4, r5⟩ := ih (dedupStep acc cur) hstep1 hstep2 hstep3 hstepcross hl.2
    refine ⟨r1, r2, r3, ?_, ?_⟩
    · intro x hx
      rcases r4 x hx with hx | hx
      · rcases dedupStep_mem hx with hx | rfl
        · exact Or.inl hx
        · exact Or.inr (by simp)
      · exact Or.inr (by simp [hx])
    · intro _
      exact r5 (Or.inl (dedupStep_ne h1))

theorem removeDupHits_subset {hits : List Hit} : ∀ x ∈ removeDupHits hits, x ∈ hits := by
  intro x hx
  unfold removeDupHits at hx
  obtain ⟨-, -, -, r4, -⟩ :=
    foldl_dedup_inv (sortHits hits) [] (by simp) (by simp) (by simp) (by simp)
      (sortHits_pairwise hits)
  rcases r4 x hx with h | h
  · simp at h
  · exact sortHits_mem.mp h

theorem removeDupHits_disj (hits : List Hit) :
    (removeDupHits hits).Pairwise (fun a b => isOverlappingOrContained a b = false) := by
  unfold removeDupHits
  obtain ⟨-, r2, -, -, -⟩ :=
    foldl_dedup_inv (sortHits hits) [] (by simp) (by simp) (by simp) (by simp)
      (sortHits_pairwise hits)
  exact r2

theorem removeDupHits_sorted (hits : List Hit) :
    (removeDupHits hits).Pairwise (fun a b => hitLexLE a b = true) := by
  unfold removeDupHits
  obtain ⟨-, -, r3, -, -⟩ :=
    foldl_dedup_inv (sortHits hits) [] (by simp) (by simp) (by simp) (by simp)
      (sortHits_pairwise hits)
  exact r3

theorem removeDupHits_ne {hits : List Hit} (h : hits ≠ []) : removeDupHits hits ≠ [] := by
  unfold removeDupHits
  obtain ⟨-, -, -, -, r5⟩ :=
    foldl_dedup_inv (sortHits hits) [] (by simp) (by simp) (by simp) (by simp)
      (sortHits_pairwise hits)
  exact r5 (Or.inr (sortHits_ne h))

/-! ### Lemmas about `removeDuplicates` -/

theorem removeDuplicates_mem :
    ∀ {d : List (String × List Hit)} {cat : String} {l : List Hit},
      (cat, l) ∈ removeDuplicates d →
      ∃ l₀, (cat, l₀) ∈ d ∧ l = removeDupHits l₀ ∧ l ≠ [] := by
  intro d
  induction d with
  | nil => intro cat l h; simp [removeDuplicates] at h
  | cons pr rest ih =>
    intro cat l h
    obtain ⟨c, hits⟩ := pr
    simp only [removeDuplicates] at h
    by_cases he : hits.isEmpty = true
    · rw [if_pos he] at h
      obtain ⟨l₀, hm, heq, hne⟩ := ih h
      exact ⟨l₀, by simp [hm], heq, hne⟩
    · rw [if_neg he] at h
      by_cases hu : (removeDupHits hits).isEmpty = true
      · rw [if_pos hu] at h
        obtain ⟨l₀, hm, heq, hne⟩ := ih h
        exact ⟨l₀, by simp [hm], heq, hne⟩
      · rw [if_neg hu] at h
        rcases List.mem_cons.mp h with heq | h
        · injection heq with hc hl
          subst hc; subst hl
          refine ⟨hits, by simp, rfl, ?_⟩
          intro hl
          rw [hl] at hu
          simp at hu
        · obtain ⟨l₀, hm, heq, hne⟩ := ih h
          exact ⟨l₀, by simp [hm], heq, hne⟩

theorem removeDuplicates_of_mem :
    ∀ {d : List (String × List Hit)} {cat : String} {hits : List Hit},
      (cat, hits) ∈ d → hits ≠ [] →
      ∃ l, (cat, l) ∈ removeDuplicates d ∧ l ≠ [] := by
  intro d
  induction d with
  | nil => intro cat hits h _; simp at h
  | cons pr rest ih =>
    intro cat hits h hne
    obtain ⟨c, chits⟩ := pr
    rcases List.mem_cons.mp h with heq | h
    · injection heq with hc hh
      subst hc; subst hh
      simp only [removeDuplicates]
      rw [if_neg (by simpa using hne)]
      have hu : removeDupHits hits ≠ [] := removeDupHits_ne hne
      rw [if_neg (by simpa using hu)]
      exact ⟨removeDupHits hits, by simp, hu⟩
    · obtain ⟨l, hl, hlne⟩ := ih h hne
      simp only [removeDuplicates]
      by_cases he : chits.isEmpty = true
      · rw [if_pos he]; exact ⟨l, hl, hlne⟩
      · rw [if_neg he]
        by_cases hu : (removeDupHits chits).isEmpty = true
        · rw [if_pos hu]; exact ⟨l, hl, hlne⟩
        · rw [if_neg hu]
          exact ⟨l, by simp [hl], hlne⟩

/-! ### Lemmas about the false-positive filter and the exact path -/

theorem fpFilter_subset {fp : List (String × List Str)} {cat : String} {hits : List Hit} :
    ∀ h ∈ fpFilter fp cat hits, h ∈ hits := by
  intro h hh
  unfold fpFilter at hh
  cases hl : List.lookup cat fp with
  | none => rw [hl] at hh; exact hh
  | some phrases =>
    rw [hl] at hh
    cases phrases with
    | nil => exact hh
    | cons p ps => exact List.mem_of_mem_filter hh

theorem fpFilter_prop {fp : List (String × List Str)} {cat : String} {hits : List Hit}
    {phrases : List Str} (hl : List.lookup cat fp = some phrases) (hne : phrases ≠ []) :
    ∀ h ∈ fpFilter fp cat hits, ∀ p ∈ phrases, p ≠ [] →
      subStr (normalize p) (normalize h.context) = false := by
  intro h hh p hp hpne
  unfold fpFilter at hh
  rw [hl] at hh
  cases phrases with
  | nil => exact absurd rfl hne
  | cons q qs =>
    have hf := List.of_mem_filter hh
    simp only [Bool.not_eq_true', List.any_eq_false] at hf
    rw [Bool.eq_false_iff]
    refine hf (normalize p) ?_
    simp only [List.mem_map, List.mem_filter]
    exact ⟨p, ⟨hp, by simpa using hpne⟩, rfl⟩

theorem detectExactGo_mem {catPats : List (String × List CatPat)}
    {fp : List (String × List Str)} {enableSec : Bool} {text normText : Str}
    {idxMap : List Nat} :
    ∀ {compiled : List (String × List NormItem)} {d : List (String × List Hit)},
      detectExactGo catPats fp enableSec text normText idxMap compiled = .ok d →
      ∀ pr ∈ d, ∃ items hs₀, (pr.1, items) ∈ compiled ∧
        scanItems catPats enableSec text normText idxMap pr.1 items = .ok hs₀ ∧
        pr.2 = fpFilter fp pr.1 hs₀ ∧ pr.2 ≠ [] := by
  intro compiled
  induction compiled with
  | nil =>
    intro d h pr hpr
    simp only [detectExactGo, Except.ok.injEq] at h
    subst h
    simp at hpr
  | cons entry rest ih =>
    intro d h pr hpr
    obtain ⟨cat, items⟩ := entry
    rw [detectExactGo] at h
    cases hs : scanItems catPats enableSec text normText idxMap cat items with
    | error err => rw [hs] at h; simp at h
    | ok hs₀ =>
      rw [hs] at h
      simp only at h
      cases hr : detectExactGo catPats fp enableSec text normText idxMap rest with
      | error err => rw [hr] at h; simp at h
      | ok tail =>
        rw [hr] at h
        simp only [Except.ok.injEq] at h
        subst h
        by_cases he : (fpFilter fp cat hs₀).isEmpty = true
        · rw [if_pos he] at hpr
          obtain ⟨its, hs₁, hm, hsc, heq, hne⟩ := ih hr pr hpr
          exact ⟨its, hs₁, by simp [hm], hsc, heq, hne⟩
        · rw [if_neg he] at hpr
          rcases List.mem_cons.mp hpr with heq | hpr
          · subst heq
            exact ⟨items, hs₀, by simp, hs, rfl, by simpa using he⟩
          · obtain ⟨its, hs₁, hm, hsc, heq, hne⟩ := ih hr pr hpr
            exact ⟨its, hs₁, by simp [hm], hsc, heq, hne⟩

theorem scanItems_spans {catPats : List (String × List CatPat)} {enableSec : Bool}
    {text normText : Str} {idxMap : List Nat} {cat : String}
    (hlen : normText.length = idxMap.length)
    (hmem : ∀ j ∈ idxMap, j < text.length)
    (hpw : idxMap.Pairwise (· < ·)) :
    ∀ (items : List NormItem), (∀ it ∈ items, it.norm ≠ []) →
      ∀ {hs : List Hit},
        scanItems catPats enableSec text normText idxMap cat items = .ok hs →
        ∀ h ∈ hs, h.start_position < h.end_position ∧ h.end_position ≤ text.length := by
  intro items
  induction items with
  | nil =>
    intro _ hs h
    simp only [scanItems, Except.ok.injEq] at h
    subst h
    simp
  | cons item rest ih =>
    intro hnn hs h
    rw [scanItems] at h
    cases h1 : scanNeedle catPats enableSec text normText idxMap cat item
        (normText.length + 2) 0 with
    | error err => rw [h1] at h; simp at h
    | ok hs1 =>
      rw [h1] at h
      simp only at h
      cases h2 : scanItems catPats enableSec text normText idxMap cat rest with
      | error err => rw [h2] at h; simp at h
      | ok hs2 =>
        rw [h2] at h
        simp only [Except.ok.injEq] at h
        subst h
        intro x hx
        rcases List.mem_append.mp hx with hx | hx
        · exact scanNeedle_spans hlen hmem hpw (hnn item (by simp)) _ _ _ h1 x hx
        · exact ih (fun it hit => hnn it (by simp [hit])) h2 x hx

/-! ### Bounds for the flexible-pattern matcher of the combination path -/

theorem wsPrefixLen_le (s : Str) : wsPrefixLen s ≤ s.length := by
  induction s with
  | nil => simp [wsPrefixLen]
  | cons c cs ih =>
    simp only [wsPrefixLen]
    by_cases h : isWsChar c = true
    · rw [if_pos h]; simp only [List.length_cons]; omega
    · rw [if_neg h]; simp

theorem matchF_len : ∀ fuel : Nat,
    (∀ (toks : List FlexTok) (s r : Str), matchToksF fuel toks s = some r →
      r.length ≤ s.length) ∧
    (∀ (rest : List FlexTok) (s : Str) (i : Nat) (r : Str),
      matchWsF fuel rest s i = some r → r.length ≤ s.length) ∧
    (∀ (as : List Str) (rest : List FlexTok) (s r : Str),
      matchAltF fuel as rest s = some r → r.length ≤ s.length) := by
  intro fuel
  induction fuel with
  | zero =>
    refine ⟨?_, ?_, ?_⟩ <;> intros <;> simp_all [matchToksF, matchWsF, matchAltF]
  | succ f ih =>
    obtain ⟨ihT, ihW, ihA⟩ := ih
    refine ⟨?_, ?_, ?_⟩
    · intro toks s r h
      cases toks with
      | nil => simp only [matchToksF, Option.some_inj] at h; subst h; exact Nat.le_refl _
      | cons t ts =>
        cases t with
        | lit c =>
          cases s with
          | nil => simp [matchToksF] at h
          | cons x xs =>
            simp only [matchToksF] at h
            by_cases hc : lowerChar x = lowerChar c
            · rw [if_pos hc] at h
              have := ihT _ _ _ h
              simp only [List.length_cons]
              omega
            · rw [if_neg hc] at h; simp at h
        | ws =>
          simp only [matchToksF] at h
          exact ihW _ _ _ _ h
        | alt as =>
          simp only [matchToksF] at h
          exact ihA _ _ _ _ h
    · intro rest s i r h
      cases i with
      | zero =>
        simp only [matchWsF] at h
        exact ihT _ _ _ h
      | succ i' =>
        simp only [matchWsF] at h
        cases hm : matchToksF f rest (s.drop (i' + 1)) with
        | some r' =>
          rw [hm] at h
          simp only [Option.some_inj] at h
          subst h
          have := ihT _ _ _ hm
          rw [List.length_drop] at this
          omega
        | none =>
          rw [hm] at h
          exact ihW _ _ _ _ h
    · intro as rest s r h
      cases as with
      | nil => simp [matchAltF] at h
      | cons a as' =>
        simp only [matchAltF] at h
        cases hm : matchLits a s with
        | none => rw [hm] at h; exact ihA _ _ _ _ h
        | some r1 =>
          rw [hm] at h
          simp only at h
          have h1 := matchLits_length hm
          cases hm2 : matchToksF f rest r1 with
          | some r2 =>
            rw [hm2] at h
            simp only [Option.some_inj] at h
            subst h
            have := ihT _ _ _ hm2
            omega
          | none =>
            rw [hm2] at h
            exact ihA _ _ _ _ h

theorem matchF_strict : ∀ fuel : Nat,
    (∀ (toks : List FlexTok) (s r : Str), hasSolid toks = true → altsWF toks →
      matchToksF fuel toks s = some r → r.length < s.length) ∧
    (∀ (rest : List FlexTok) (s : Str) (i : Nat) (r : Str), hasSolid rest = true →
      altsWF rest → i ≤ s.length →
      matchWsF fuel rest s i = some r → r.length < s.length) ∧
    (∀ (as : List Str) (rest : List FlexTok) (s r : Str), (∀ a ∈ as, a ≠ []) →
      matchAltF fuel as rest s = some r → r.length < s.length) := by
  intro fuel
  induction fuel with
  | zero =>
    refine ⟨?_, ?_, ?_⟩ <;> intros <;> simp_all [matchToksF, matchWsF, matchAltF]
  | succ f ih =>
    obtain ⟨ihT, ihW, ihA⟩ := ih
    refine ⟨?_, ?_, ?_⟩
    · intro toks s r hsolid hwf h
      cases toks with
      | nil => simp [hasSolid] at hsolid
      | cons t ts =>
        cases t with
        | lit c =>
          cases s with
          | nil => simp [matchToksF] at h
          | cons x xs =>
            simp only [matchToksF] at h
            by_cases hc : lowerChar x = lowerChar c
            · rw [if_pos hc] at h
              have := (matchF_len f).1 _ _ _ h
              simp only [List.length_cons]
              omega
            · rw [if_neg hc] at h; simp at h
        | ws =>
          simp only [matchToksF] at h
          have hsolid' : hasSolid ts = true := by
            simpa [hasSolid, tokSolid] using hsolid
          have hwf' : altsWF ts := fun t ht => hwf t (by simp [ht])
          exact ihW _ _ _ _ hsolid' hwf' (wsPrefixLen_le s) h
        | alt as =>
          simp only [matchToksF] at h
          have hwf' : ∀ a ∈ as, a ≠ [] := hwf (.alt as) (by simp) as rfl
          exact ihA _ _ _ _ hwf' h
    · intro rest s i r hsolid hwf hi h
      cases i with
      | zero =>
        simp only [matchWsF] at h
        exact ihT _ _ _ hsolid hwf h
      | succ i' =>
        simp only [matchWsF] at h
        cases hm : matchToksF f rest (s.drop (i' + 1)) with
        | some r' =>
          rw [hm] at h
          simp only [Option.some_inj] at h
          subst h
          have := (matchF_len f).1 _ _ _ hm
          rw [List.length_drop] at this
          omega
        | none =>
          rw [hm] at h
          exact ihW _ _ _ _ hsolid hwf (by omega) h
    · intro as rest s r hwf h
      cases as with
      | nil => simp [matchAltF] at h
      | cons a as' =>
        simp only [matchAltF] at h
        cases hm : matchLits a s with
        | none =>
          rw [hm] at h
          exact ihA _ _ _ _ (fun a' ha' => hwf a' (by simp [ha'])) h
        | some r1 =>
          rw [hm] at h
          simp only at h
          have h1 := matchLits_length hm
          have ha : a ≠ [] := hwf a (by simp)
          have haL : 1 ≤ a.length := by
            cases a with
            | nil => exact absurd rfl ha
            | cons _ _ => simp
          cases hm2 : matchToksF f rest r1 with
          | some r2 =>
            rw [hm2] at h
            simp only [Option.some_inj] at h
            subst h
            have := (matchF_len f).1 _ _ _ hm2
            omega
          | none =>
            rw [hm2] at h
            exact ihA _ _ _ _ (fun a' ha' => hwf a' (by simp [ha'])) h

theorem flexFindIterAux_bounds {toks : List FlexTok} {text : Str}
    (hsolid : hasSolid toks = true) (hwf : altsWF toks) :
    ∀ (fuel pos : Nat), ∀ pr ∈ flexFindIterAux toks text fuel pos,
      pr.1 < pr.2 ∧ pr.2 ≤ text.length := by
  intro fuel
  induction fuel with
  | zero => intro pos pr h; simp [flexFindIterAux] at h
  | succ f ih =>
    intro pos pr h
    rw [flexFindIterAux] at h
    by_cases hpos : pos > text.length
    · rw [if_pos hpos] at h; simp at h
    · rw [if_neg hpos] at h
      cases hm : matchToks toks (text.drop pos) with
      | none =>
        rw [hm] at h
        exact ih _ pr h
      | some r =>
        rw [hm] at h
        simp only at h
        have hstrict : r.length < (text.drop pos).length :=
          (matchF_strict _).1 _ _ _ hsolid hwf hm
        have hcons : (text.drop pos).length - r.length ≠ 0 := by omega
        rw [if_neg hcons] at h
        rcases List.mem_cons.mp h with heq | h
        · subst heq
          rw [List.length_drop] at hstrict ⊢
          constructor
          · simp; omega
          · simp; omega
        · exact ih _ pr h

/-! ### The flexible pattern of a non-empty keyword is solid and well-formed -/

theorem interleaveWs_solid {kw : Str} (h : kw ≠ []) :
    hasSolid (interleaveWs kw) = true := by
  cases kw with
  | nil => exact absurd rfl h
  | cons c cs =>
    cases cs with
    | nil => simp [interleaveWs, hasSolid, tokSolid]
    | cons c' cs' => simp [interleaveWs, hasSolid, tokSolid]

theorem interleaveWs_mem {kw : Str} :
    ∀ t ∈ interleaveWs kw, (∃ c, t = FlexTok.lit c) ∨ t = FlexTok.ws := by
  induction kw with
  | nil => simp [interleaveWs]
  | cons c cs ih =>
    cases cs with
    | nil =>
      intro t ht
      simp only [interleaveWs, List.mem_singleton] at ht
      exact Or.inl ⟨c, ht⟩
    | cons c' cs' =>
      intro t ht
      simp only [interleaveWs, List.mem_cons] at ht
      rcases ht with rfl | rfl | ht
      · exact Or.inl ⟨c, rfl⟩
      · exact Or.inr rfl
      · exact ih t ht

theorem replaceToksAux_mem {pat : List FlexTok} {rep : FlexTok} :
    ∀ (fuel : Nat) (s : List FlexTok), ∀ t ∈ replaceToksAux pat rep fuel s,
      t ∈ s ∨ t = rep := by
  intro fuel
  induction fuel with
  | zero => intro s t ht; simp only [replaceToksAux] at ht; exact Or.inl ht
  | succ f ih =>
    intro s t ht
    cases s with
    | nil => simp [replaceToksAux] at ht
    | cons x xs =>
      simp only [replaceToksAux] at ht
      by_cases hc : (!pat.isEmpty && pat.isPrefixOf (x :: xs)) = true
      · rw [if_pos hc] at ht
        rcases List.mem_cons.mp ht with rfl | ht
        · exact Or.inr rfl
        · rcases ih _ t ht with hmem | hrep
          · exact Or.inl (List.drop_subset _ _ hmem)
          · exact Or.inr hrep
      · rw [if_neg hc] at ht
        rcases List.mem_cons.mp ht with rfl | ht
        · exact Or.inl (by simp)
        · rcases ih _ t ht with hmem | hrep
          · exact Or.inl (by simp [hmem])
          · exact Or.inr hrep

theorem replaceToksAux_solid {pat : List FlexTok} {as : List Str} :
    ∀ (fuel : Nat) (s : List FlexTok), hasSolid s = true →
      hasSolid (replaceToksAux pat (.alt as) fuel s) = true := by
  intro fuel
  induction fuel with
  | zero => intro s hs; simpa [replaceToksAux] using hs
  | succ f ih =>
    intro s hs
    cases s with
    | nil => simp [hasSolid] at hs
    | cons x xs =>
      simp only [replaceToksAux]
      by_cases hc : (!pat.isEmpty && pat.isPrefixOf (x :: xs)) = true
      · rw [if_pos hc]
        simp [hasSolid, tokSolid]
      · rw [if_neg hc]
        simp only [hasSolid, List.any_cons, Bool.or_eq_true] at hs ⊢
        rcases hs with hs | hs
        · exact Or.inl hs
        · exact Or.inr (ih xs hs)

theorem replaceToks_wf {pat : List FlexTok} {as : List Str} {s : List FlexTok}
    (hwf : altsWF s) (has : ∀ a ∈ as, a ≠ []) :
    altsWF (replaceToks pat (.alt as) s) := by
  intro t ht as' heq a ha
  rcases replaceToksAux_mem _ _ t ht with hmem | hrep
  · exact hwf t hmem as' heq a ha
  · subst hrep
    simp only [FlexTok.alt.injEq] at heq
    subst heq
    exact has a ha

theorem replaceToks_solid {pat : List FlexTok} {as : List Str} {s : List FlexTok}
    (hs : hasSolid s = true) : hasSolid (replaceToks pat (.alt as) s) = true :=
  replaceToksAux_solid _ _ hs

theorem dbAlts_ne : ∀ a ∈ dbAlts, a ≠ [] := by
  intro a ha
  simp only [dbAlts, List.mem_cons] at ha
  rcases ha with rfl | rfl | rfl | rfl | ha
  · simp
  · simp
  · simp
  · simp
  · simp at ha

theorem idAlts_ne : ∀ a ∈ idAlts, a ≠ [] := by
  intro a ha
  simp only [idAlts, List.mem_cons] at ha
  rcases ha with rfl | rfl | rfl | rfl | ha
  · simp
  · simp
  · simp
  · simp
  · simp at ha

theorem createFlexiblePattern_solid {kw : Str} (h : kw ≠ []) :
    hasSolid (createFlexiblePattern kw) = true := by
  unfold createFlexiblePattern
  exact replaceToks_solid (replaceToks_solid (replaceToks_solid
    (replaceToks_solid (interleaveWs_solid h))))

theorem createFlexiblePattern_wf (kw : Str) : altsWF (createFlexiblePattern kw) := by
  unfold createFlexiblePattern
  apply replaceToks_wf _ idAlts_ne
  apply replaceToks_wf _ idAlts_ne
  apply replaceToks_wf _ dbAlts_ne
  apply replaceToks_wf _ dbAlts_ne
  intro t ht as heq a ha
  rcases interleaveWs_mem t ht with ⟨c, rfl⟩ | rfl <;> simp at heq

/-! ### Non-emptiness of alias variants -/

theorem subWs_ne {groups : List Str} {rep s : Str} (hrep : rep ≠ []) (hs : s ≠ []) :
    subWs groups rep s ≠ [] := by
  cases s with
  | nil => exact absurd rfl hs
  | cons c cs =>
    unfold subWs
    simp only [List.length_cons]
    rw [subWsAux]
    cases hm : matchGroupsRest groups (c :: cs) with
    | none => simp
    | some rest =>
      simp only
      by_cases hlt : rest.length < (c :: cs).length
      · rw [if_pos hlt]
        intro hcontra
        exact hrep (List.append_eq_nil.mp hcontra).1
      · rw [if_neg hlt]
        simp

theorem dedupFirstAux_subset :
    ∀ (l seen : List Str), ∀ x ∈ dedupFirstAux seen l, x ∈ l := by
  intro l
  induction l with
  | nil => intro seen x hx; simp [dedupFirstAux] at hx
  | cons y ys ih =>
    intro seen x hx
    simp only [dedupFirstAux] at hx
    by_cases hm : y ∈ seen
    · rw [if_pos hm] at hx
      exact List.mem_cons_of_mem _ (ih _ x hx)
    · rw [if_neg hm] at hx
      rcases List.mem_cons.mp hx with rfl | hx
      · simp
      · exact List.mem_cons_of_mem _ (ih _ x hx)

theorem expandAliasVariants_ne {kw : Str} (h : kw ≠ []) :
    ∀ v ∈ expandAliasVariants kw, v ≠ [] := by
  intro v hv
  have hmem := dedupFirstAux_subset _ _ v hv
  simp only [List.mem_cons] at hmem
  rcases hmem with rfl | rfl | rfl | rfl | rfl | hmem
  · exact h
  · exact subWs_ne (by simp) h
  · exact subWs_ne (by simp) h
  · exact subWs_ne (by simp) h
  · exact subWs_ne (by simp) h
  · simp at hmem

/-! ### Span bounds for the combination path -/

theorem findKeywordPositions_bounds {kw text : Str} (hkw : kw ≠ []) :
    ∀ p ∈ findKeywordPositions kw text, p.1 < p.2.1 ∧ p.2.1 ≤ text.length := by
  intro p hp
  simp only [findKeywordPositions, List.mem_flatMap, List.mem_map] at hp
  obtain ⟨v, hv, se, hse, rfl⟩ := hp
  have hvne : v ≠ [] := expandAliasVariants_ne hkw v hv
  have := flexFindIterAux_bounds (createFlexiblePattern_solid hvne)
    (createFlexiblePattern_wf v) _ _ se hse
  exact this

theorem combHitsForKw_spans {catPats : List (String × List CatPat)} {enableSec : Bool}
    {text : Str} {cat : String} {kw : Str} :
    ∀ (ps : List (Nat × Nat × Str)) {hits : List Hit},
      (∀ p ∈ ps, p.1 < p.2.1 ∧ p.2.1 ≤ text.length) →
      combHitsForKw catPats enableSec text cat kw ps = .ok hits →
      ∀ h ∈ hits, h.start_position < h.end_position ∧ h.end_position ≤ text.length := by
  intro ps
  induction ps with
  | nil =>
    intro hits _ h
    simp only [combHitsForKw, Except.ok.injEq] at h
    subst h
    simp
  | cons p rest ih =>
    intro hits hb h
    obtain ⟨s, e, m⟩ := p
    rw [combHitsForKw] at h
    cases hkeep : (if enableSec then passesSecondaryFilter catPats kw m text s e cat
        else .ok true) with
    | error err => rw [hkeep] at h; simp at h
    | ok b =>
      rw [hkeep] at h
      simp only at h
      cases hr : combHitsForKw catPats enableSec text cat kw rest with
      | error err => rw [hr] at h; simp at h
      | ok hs =>
        rw [hr] at h
        simp only [Except.ok.injEq] at h
        subst h
        intro x hx
        have hrest : ∀ x ∈ hs, x.start_position < x.end_position ∧
            x.end_position ≤ text.length :=
          ih (fun q hq => hb q (by simp [hq])) hr
        by_cases hbv : b = true
        · subst hbv
          simp only [if_pos] at hx
          rcases List.mem_cons.mp hx with rfl | hx
          · have := hb (s, e, m) (by simp)
            simpa [mkHit] using this
          · exact hrest x hx
        · simp only [Bool.not_eq_true] at hbv
          subst hbv
          simp only [Bool.false_eq_true, if_false] at hx
          exact hrest x hx

theorem combHitsForCat_spans {catPats : List (String × List CatPat)} {enableSec : Bool}
    {text : Str} {cat : String} :
    ∀ (klist : List Str) {hits : List Hit}, (∀ kw ∈ klist, kw ≠ []) →
      combHitsForCat catPats enableSec text cat klist = .ok hits →
      ∀ h ∈ hits, h.start_position < h.end_position ∧ h.end_position ≤ text.length := by
  intro klist
  induction klist with
  | nil =>
    intro hits _ h
    simp only [combHitsForCat, Except.ok.injEq] at h
    subst h
    simp
  | cons kw rest ih =>
    intro hits hne h
    rw [combHitsForCat] at h
    cases hh : (if checkFullKeywordPresence kw text then
        combHitsForKw catPats enableSec text cat kw (findKeywordPositions kw text)
      else .ok []) with
    | error err => rw [hh] at h; simp at h
    | ok hs1 =>
      rw [hh] at h
      simp only at h
      cases hr : combHitsForCat catPats enableSec text cat rest with
      | error err => rw [hr] at h; simp at h
      | ok hs2 =>
        rw [hr] at h
        simp only [Except.ok.injEq] at h
        subst h
        intro x hx
        rcases List.mem_append.mp hx with hx | hx
        · by_cases hc : checkFullKeywordPresence kw text = true
          · rw [if_pos hc] at hh
            exact combHitsForKw_spans _
              (findKeywordPositions_bounds (hne kw (by simp))) hh x hx
          · rw [if_neg hc] at hh
            simp only [Except.ok.injEq] at hh
            subst hh
            simp at hx
        · exact ih (fun k hk => hne k (by simp [hk])) hr x hx

theorem detectCombGo_spans {catPats : List (String × List CatPat)} {enableSec : Bool}
    {text : Str} :
    ∀ (illegal : List (String × List Str)) {d : List (String × List Hit)},
      (∀ pr ∈ illegal, ∀ kw ∈ pr.2, kw ≠ []) →
      detectComb.go catPats enableSec text illegal = .ok d →
      ∀ pr ∈ d, ∀ h ∈ pr.2,
        h.start_position < h.end_position ∧ h.end_position ≤ text.length := by
  intro illegal
  induction illegal with
  | nil =>
    intro d _ h pr hpr
    simp only [detectComb.go, Except.ok.injEq] at h
    subst h
    simp at hpr
  | cons entry rest ih =>
    intro d hne h pr hpr
    obtain ⟨cat, klist⟩ := entry
    rw [detectComb.go] at h
    cases hs : combHitsForCat catPats enableSec text cat klist with
    | error err => rw [hs] at h; simp at h
    | ok hs1 =>
      rw [hs] at h
      simp only at h
      cases hr : detectComb.go catPats enableSec text rest with
      | error err => rw [hr] at h; simp at h
      | ok tail =>
        rw [hr] at h
        simp only [Except.ok.injEq] at h
        subst h
        by_cases he : hs1.isEmpty = true
        · rw [if_pos he] at hpr
          exact ih (fun q hq => hne q (by simp [hq])) hr pr hpr
        · rw [if_neg he] at hpr
          rcases List.mem_cons.mp hpr with rfl | hpr
          · intro x hx
            exact combHitsForCat_spans klist
              (fun kw hk => hne (cat, klist) (by simp) kw hk) hs x hx
          · exact ih (fun q hq => hne q (by simp [hq])) hr pr hpr

/-! ### Adequacy of the exact path with the secondary filter disabled -/

theorem detectExactGo_noSec_ok (catPats : List (String × List CatPat))
    (fp : List (String × List Str)) (text : Str) {normText : Str} {idxMap : List Nat}
    (hlen : normText.length = idxMap.length) :
    ∀ (compiled : List (String × List NormItem)),
      (∀ pr ∈ compiled, ∀ it ∈ pr.2, it.norm ≠ []) →
      ∃ d, detectExactGo catPats fp false text normText idxMap compiled = .ok d ∧
        (∀ (cat : String) (items : List NormItem), (cat, items) ∈ compiled →
          (∃ it ∈ items, subStr it.norm normText = true) →
          List.lookup cat fp = none →
          ∃ hs, (cat, hs) ∈ d ∧ hs ≠ []) := by
  intro compiled
  induction compiled with
  | nil =>
    intro _
    exact ⟨[], by simp [detectExactGo], by simp⟩
  | cons entry rest ih =>
    intro hnn
    obtain ⟨cat0, items0⟩ := entry
    obtain ⟨hs0, hscan, hne0⟩ := scanItems_noSec_ok catPats cat0
      hlen items0 (fun it hit => hnn (cat0, items0) (by simp) it hit)
    obtain ⟨tail, htail, htailmem⟩ := ih (fun q hq it hit => hnn q (by simp [hq]) it hit)
    refine ⟨_, by rw [detectExactGo, hscan, htail], ?_⟩
    intro cat items hmem hfind hfp
    rcases List.mem_cons.mp hmem with heq | hmem
    · injection heq with hc hi
      subst hc; subst hi
      have hhs0 : hs0 ≠ [] := by
        obtain ⟨it, hit, hsub⟩ := hfind
        exact hne0 it hit hsub
      have hfpid : fpFilter fp cat hs0 = hs0 := by
        unfold fpFilter
        rw [hfp]
      rw [hfpid]
      rw [if_neg (by simpa using hhs0)]
      exact ⟨hs0, by simp, hhs0⟩
    · obtain ⟨hs, hhs, hhne⟩ := htailmem cat items hmem hfind hfp
      by_cases he : (fpFilter fp cat0 hs0).isEmpty = true
      · rw [if_pos he]
        exact ⟨hs, hhs, hhne⟩
      · rw [if_neg he]
        exact ⟨hs, by simp [hhs], hhne⟩

/-! ### Structure of the combination-path result -/

theorem combHitsForCat_nil {catPats : List (String × List CatPat)} {enableSec : Bool}
    {text : Str} {cat : String} :
    ∀ (klist : List Str), (∀ kw ∈ klist, checkFullKeywordPresence kw text = false) →
      combHitsForCat catPats enableSec text cat klist = .ok [] := by
  intro klist
  induction klist with
  | nil => intro _; simp [combHitsForCat]
  | cons kw rest ih =>
    intro hall
    rw [combHitsForCat]
    have hkw : checkFullKeywordPresence kw text = false := hall kw (by simp)
    rw [if_neg (by simp [hkw])]
    rw [ih (fun k hk => hall k (by simp [hk]))]
    simp

theorem detectCombGo_mem {catPats : List (String × List CatPat)} {enableSec : Bool}
    {text : Str} :
    ∀ {illegal : List (String × List Str)} {d : List (String × List Hit)},
      detectComb.go catPats enableSec text illegal = .ok d →
      ∀ pr ∈ d, ∃ klist, (pr.1, klist) ∈ illegal ∧
        combHitsForCat catPats enableSec text pr.1 klist = .ok pr.2 ∧ pr.2 ≠ [] := by
  intro illegal
  induction illegal with
  | nil =>
    intro d h pr hpr
    simp only [detectComb.go, Except.ok.injEq] at h
    subst h
    simp at hpr
  | cons entry rest ih =>
    intro d h pr hpr
    obtain ⟨cat, klist⟩ := entry
    rw [detectComb.go] at h
    cases hs : combHitsForCat catPats enableSec text cat klist with
    | error err => rw [hs] at h; simp at h
    | ok hs1 =>
      rw [hs] at h
      simp only at h
      cases hr : detectComb.go catPats enableSec text rest with
      | error err => rw [hr] at h; simp at h
      | ok tail =>
        rw [hr] at h
        simp only [Except.ok.injEq] at h
        subst h
        by_cases he : hs1.isEmpty = true
        · rw [if_pos he] at hpr
          obtain ⟨kl, hm, hc, hn⟩ := ih hr pr hpr
          exact ⟨kl, by simp [hm], hc, hn⟩
        · rw [if_neg he] at hpr
          rcases List.mem_cons.mp hpr with rfl | hpr
          · exact ⟨klist, by simp, hs, by simpa using he⟩
          · obtain ⟨kl, hm, hc, hn⟩ := ih hr pr hpr
            exact ⟨kl, by simp [hm], hc, hn⟩

/-! ## Claim theorems -/

/-- C10: for the empty input string (the only falsy `str` value),
`detect_keywords_in_text` returns the empty mapping immediately, regardless
of the catalog, false-positive set, pattern table, compiled norms, and the
`enable_secondary_filter` / `require_full_combination` options. -/
theorem claim_C10 (illegal fp : List (String × List Str))
    (catPats : List (String × List CatPat)) (compiled : List (String × List NormItem))
    (es rc : Bool) :
    detectKeywordsInText illegal fp catPats compiled [] es rc = .ok [] := by
  simp [detectKeywordsInText]

/-- C9: in every result returned by `detect_keywords_in_text`, each
category's hit list is ordered by increasing `start_position` then
`end_position`, and no category ever maps to an empty list (a category with
no surviving hits is absent from the mapping). -/
theorem claim_C9 (illegal fp : List (String × List Str))
    (catPats : List (String × List CatPat)) (compiled : List (String × List NormItem))
    (text : Str) (es rc : Bool) (res : List (String × List Hit))
    (hdet : detectKeywordsInText illegal fp catPats compiled text es rc = .ok res) :
    ∀ pr ∈ res, pr.2 ≠ [] ∧ pr.2.Pairwise (fun a b => hitLexLE a b = true) := by
  intro pr hpr
  unfold detectKeywordsInText at hdet
  by_cases hte : text.isEmpty = true
  · rw [if_pos hte] at hdet
    simp only [Except.ok.injEq] at hdet
    subst hdet
    simp at hpr
  · rw [if_neg hte] at hdet
    have hmem : ∃ d, res = removeDuplicates d := by
      by_cases hrc : rc = true
      · rw [if_pos hrc] at hdet
        cases hg : detectComb illegal catPats es text with
        | error err => rw [hg] at hdet; simp at hdet
        | ok d =>
          rw [hg] at hdet
          simp only [Except.ok.injEq] at hdet
          exact ⟨d, hdet.symm⟩
      · rw [if_neg hrc] at hdet
        cases hg : detectExact compiled fp catPats text es with
        | error err => rw [hg] at hdet; simp at hdet
        | ok d =>
          rw [hg] at hdet
          simp only [Except.ok.injEq] at hdet
          exact ⟨d, hdet.symm⟩
    obtain ⟨d, rfl⟩ := hmem
    obtain ⟨cat, lst⟩ := pr
    obtain ⟨l₀, -, heq, hne⟩ := removeDuplicates_mem hpr
    subst heq
    exact ⟨hne, removeDupHits_sorted l₀⟩

/-- C9 witness: the theorem applied to a concrete one-keyword catalog and
text, instantiated at the returned category entry. -/
theorem claim_C9_witness :
    ([mkHit ['토', '토'] ['토', '토'] 0 2 ['토', '토']] : List Hit) ≠ [] ∧
    ([mkHit ['토', '토'] ['토', '토'] 0 2 ['토', '토']] : List Hit).Pairwise
      (fun a b => hitLexLE a b = true) :=
  claim_C9 [("cat", [['토', '토']])] [] []
    (compileNormsExact [("cat", [['토', '토']])]) ['토', '토'] false false
    [("cat", [mkHit ['토', '토'] ['토', '토'] 0 2 ['토', '토']])] (by decide)
    ("cat", [mkHit ['토', '토'] ['토', '토'] 0 2 ['토', '토']]) (by decide)

/-- C3: the detection call never propagates an index-map translation fault
(`IndexError`) to the caller, for any catalog, options and text, provided
every compiled normalized form is non-empty (which both compilation modes
guarantee).  In fact no out-of-bounds translation can occur at all, so the
fail-closed drop described by the spec is vacuously satisfied. -/
theorem claim_C3 (illegal fp : List (String × List Str))
    (catPats : List (String × List CatPat)) (compiled : List (String × List NormItem))
    (text : Str) (es rc : Bool)
    (hnn : ∀ pr ∈ compiled, ∀ it ∈ pr.2, it.norm ≠ []) :
    detectKeywordsInText illegal fp catPats compiled text es rc ≠
      .error .indexFault := by
  unfold detectKeywordsInText
  by_cases hte : text.isEmpty = true
  · rw [if_pos hte]; simp
  · rw [if_neg hte]
    by_cases hrc : rc = true
    · rw [if_pos hrc]
      cases hg : detectComb illegal catPats es text with
      | error err =>
        intro h
        simp only [Except.error.injEq] at h
        rw [h] at hg
        exact detectCombGo_not_indexFault _ hg
      | ok d => simp
    · rw [if_neg hrc]
      cases hg : detectExact compiled fp catPats text es with
      | error err =>
        intro h
        simp only [Except.error.injEq] at h
        rw [h] at hg
        unfold detectExact at hg
        exact detectExactGo_not_indexFault (buildNormMap_len_eq text) compiled hnn hg
      | ok d => simp

/-- C3 witness: the theorem applied to a concrete catalog and text. -/
theorem claim_C3_witness :
    detectKeywordsInText [("cat", [['토', '토']])] [] []
      (compileNormsExact [("cat", [['토', '토']])]) ['토', '토', '비'] true false ≠
      .error .indexFault :=
  claim_C3 [("cat", [['토', '토']])] [] []
    (compileNormsExact [("cat", [['토', '토']])]) ['토', '토', '비'] true false (by decide)

/-- C8: contrary to the claim, an invalid category-pattern configuration
does **not** make engine construction fail: the constructor never touches
the pattern table, so construction succeeds for any table, and the fault
surfaces only when a later detection call (with the secondary filter
enabled) reaches the malformed pattern in `_match_category_pattern`. -/
theorem claim_C8 :
    constructEngine c8Illegal [] c8Pats =
      .ok { illegal := c8Illegal, falsePositive := [],
            compiled := compileNormsExact c8Illegal } ∧
    detectKeywordsInText c8Illegal [] c8Pats (compileNormsExact c8Illegal)
      ['토', '토', ' ', '판', '매'] true false = .error .regexFault := by
  constructor
  · rfl
  · decide

/-- C2 counterexample: deduplication keeps **two** representatives (`A` and
`C`) of the single transitive overlap cluster `{A, B, C}`, refuting
"exactly one representative per cluster"; and in the cluster `{D, E, F}` the
pair `(E, F)` overlaps, only `F` is kept, and the kept keyword is strictly
shorter than the discarded one's, refuting the kept-length law. -/
theorem claim_C2_counterexample :
    removeDupHits [c2hA, c2hB, c2hC] = [c2hA, c2hC] ∧
    isOverlappingOrContained c2hA c2hB = true ∧
    isOverlappingOrContained c2hB c2hC = true ∧
    isOverlappingOrContained c2hA c2hC = false ∧
    removeDupHits [c2hD, c2hE, c2hF] = [c2hD, c2hF] ∧
    isOverlappingOrContained c2hE c2hF = true ∧
    c2hF.keyword.length < c2hE.keyword.length := by
  decide

/-- C2 (amended): within each category, deduplication returns a subset of
the candidate hits whose spans are pairwise disjoint — so of any two
overlapping candidates at most one is returned — and it returns at least
one hit whenever there are candidates.  (It does not keep exactly one
representative per transitive overlap cluster, and a kept hit's keyword
need not be at least as long as every overlapping discarded one's.) -/
theorem claim_C2 (hits : List Hit) :
    (∀ h ∈ removeDupHits hits, h ∈ hits) ∧
    (removeDupHits hits).Pairwise (fun a b => isOverlappingOrContained a b = false) ∧
    (hits ≠ [] → removeDupHits hits ≠ []) :=
  ⟨removeDupHits_subset, removeDupHits_disj hits, removeDupHits_ne⟩

/-- C2 witness: the amended theorem applied to a concrete hit list. -/
theorem claim_C2_witness :
    (∀ h ∈ removeDupHits [c2hA, c2hB, c2hC], h ∈ [c2hA, c2hB, c2hC]) ∧
    (removeDupHits [c2hA, c2hB, c2hC]).Pairwise
      (fun a b => isOverlappingOrContained a b = false) ∧
    ([c2hA, c2hB, c2hC] ≠ [] → removeDupHits [c2hA, c2hB, c2hC] ≠ []) :=
  claim_C2 [c2hA, c2hB, c2hC]

/-- C1 counterexample: with an empty catalog keyword, a combination-mode
call returns hits whose offsets have `start_position = end_position`,
refuting `start < end`. -/
theorem claim_C1_counterexample :
    (detectKeywordsInText c1Illegal [] [] (compileNormsExact c1Illegal)
        ['a'] false true).map
      (fun res => res.map (fun pr =>
        (pr.1, pr.2.map (fun h => (h.start_position, h.end_position))))) =
      .ok [("cat", [(0, 0), (1, 1)])] := by
  decide

/-- C1 (amended): provided every catalog keyword is non-empty (ruling out
the empty-keyword degenerate case of combination mode) and every compiled
normalized form is non-empty (which both compilation modes guarantee),
every hit in the returned mapping satisfies
`0 ≤ start_position < end_position ≤ length text` against the caller's
original text. -/
theorem claim_C1 (illegal fp : List (String × List Str))
    (catPats : List (String × List CatPat)) (compiled : List (String × List NormItem))
    (text : Str) (es rc : Bool)
    (hkw : ∀ pr ∈ illegal, ∀ kw ∈ pr.2, kw ≠ [])
    (hnn : ∀ pr ∈ compiled, ∀ it ∈ pr.2, it.norm ≠ [])
    (res : List (String × List Hit))
    (hdet : detectKeywordsInText illegal fp catPats compiled text es rc = .ok res) :
    ∀ pr ∈ res, ∀ h ∈ pr.2,
      h.start_position < h.end_position ∧ h.end_position ≤ text.length := by
  intro pr hpr h hh
  unfold detectKeywordsInText at hdet
  by_cases hte : text.isEmpty = true
  · rw [if_pos hte] at hdet
    simp only [Except.ok.injEq] at hdet
    subst hdet
    simp at hpr
  · rw [if_neg hte] at hdet
    by_cases hrc : rc = true
    · rw [if_pos hrc] at hdet
      cases hg : detectComb illegal catPats es text with
      | error err => rw [hg] at hdet; simp at hdet
      | ok d =>
        rw [hg] at hdet
        simp only [Except.ok.injEq] at hdet
        subst hdet
        obtain ⟨cat, lst⟩ := pr
        obtain ⟨l₀, hl₀, heq, -⟩ := removeDuplicates_mem hpr
        subst heq
        have hh₀ : h ∈ l₀ := removeDupHits_subset h hh
        exact detectCombGo_spans illegal hkw hg (cat, l₀) hl₀ h hh₀
    · rw [if_neg hrc] at hdet
      cases hg : detectExact compiled fp catPats text es with
      | error err => rw [hg] at hdet; simp at hdet
      | ok d =>
        rw [hg] at hdet
        simp only [Except.ok.injEq] at hdet
        subst hdet
        obtain ⟨cat, lst⟩ := pr
        obtain ⟨l₀, hl₀, heq, -⟩ := removeDuplicates_mem hpr
        subst heq
        have hh₀ : h ∈ l₀ := removeDupHits_subset h hh
        unfold detectExact at hg
        obtain ⟨items, hs₀, hm, hscan, heq₀, -⟩ := detectExactGo_mem hg (cat, l₀) hl₀
        simp only at heq₀
        rw [heq₀] at hh₀
        have hh₁ : h ∈ hs₀ := fpFilter_subset h hh₀
        exact scanItems_spans (buildNormMap_len_eq text) buildNormMap_mem_bounds
          (buildNormMap_pairwise text) items
          (fun it hit => hnn (cat, items) hm it hit) hscan h hh₁

/-- C1 witness: the amended theorem applied to a concrete catalog and text,
instantiated at the returned hit. -/
theorem claim_C1_witness :
    (mkHit ['토', '토'] ['토', '토'] 0 2 ['토', '토']).start_position <
      (mkHit ['토', '토'] ['토', '토'] 0 2 ['토', '토']).end_position ∧
    (mkHit ['토', '토'] ['토', '토'] 0 2 ['토', '토']).end_position ≤
      (['토', '토'] : Str).length :=
  claim_C1 [("cat", [['토', '토']])] [] []
    (compileNormsExact [("cat", [['토', '토']])]) ['토', '토'] false false
    (by decide) (by decide)
    [("cat", [mkHit ['토', '토'] ['토', '토'] 0 2 ['토', '토']])] (by decide)
    ("cat", [mkHit ['토', '토'] ['토', '토'] 0 2 ['토', '토']]) (by decide)
    (mkHit ['토', '토'] ['토', '토'] 0 2 ['토', '토']) (by decide)

/-- C4 counterexample: the keyword `토토` occurs as an unmodified literal
substring of the text `메가토토`, yet the exact-mode call with the secondary
filter disabled returns exactly one hit for the category and that hit's
normalized `matched_text` is **not** `normalize "토토"` — deduplication
replaced the literal hit by the overlapping longer keyword's hit. -/
theorem claim_C4_counterexample :
    subStr ['토', '토'] ['메', '가', '토', '토'] = true ∧
    (detectKeywordsInText c4Illegal [] [] (compileNormsExact c4Illegal)
        ['메', '가', '토', '토'] false false).map
      (fun res => res.map (fun pr =>
        (pr.1, pr.2.map (fun h =>
          decide (normalize h.matched_text = normalize ['토', '토']))))) =
      .ok [("cat", [false])] := by
  decide

/-- C4 (amended): if a catalog keyword `k` of category `cat` has a
non-empty normalization that occurs in the normalized scan text, and no
false-positive phrase list is configured for `cat`, then the exact-mode
call with the secondary filter disabled returns a mapping in which `cat`
is present with a non-empty hit list.  (The surviving representative need
not be `k`'s own hit, and `matched_text` is only guaranteed faithful
against the alias-substituted working string.) -/
theorem claim_C4 (illegal fp : List (String × List Str))
    (catPats : List (String × List CatPat)) (cat : String) (klist : List Str)
    (k text : Str)
    (hmem : (cat, klist) ∈ illegal) (hk : k ∈ klist)
    (hne : normalize k ≠ [])
    (hsub : subStr (normalize k) (buildNormMap text).1 = true)
    (hfp : List.lookup cat fp = none)
    (htext : text ≠ []) :
    ∃ res lst, detectKeywordsInText illegal fp catPats (compileNormsExact illegal)
        text false false = .ok res ∧ (cat, lst) ∈ res ∧ lst ≠ [] := by
  obtain ⟨bucket, hbucket, it, hit, hitnorm⟩ := compileNormsExact_covers hmem hk hne
  obtain ⟨d, hd, hdmem⟩ :=
    detectExactGo_noSec_ok catPats fp text
      (buildNormMap_len_eq text) (compileNormsExact illegal)
      (fun pr hpr it' hit' => compileNormsExact_nonempty pr hpr it' hit')
  obtain ⟨hs, hhs, hhsne⟩ := hdmem cat bucket hbucket ⟨it, hit, hitnorm ▸ hsub⟩ hfp
  obtain ⟨lst, hlst, hlstne⟩ := removeDuplicates_of_mem hhs hhsne
  refine ⟨removeDuplicates d, lst, ?_, hlst, hlstne⟩
  unfold detectKeywordsInText
  rw [if_neg (by simpa using htext)]
  simp only [Bool.false_eq_true, if_false]
  unfold detectExact
  rw [hd]

/-- C4 witness: the amended theorem applied to a concrete catalog and
text. -/
theorem claim_C4_witness :
    ∃ res lst, detectKeywordsInText [("cat", [['토', '토']])] [] []
        (compileNormsExact [("cat", [['토', '토']])]) ['토', '토', '비'] false false =
        .ok res ∧ (("cat" : String), lst) ∈ res ∧ lst ≠ [] :=
  claim_C4 [("cat", [['토', '토']])] [] [] "cat" [['토', '토']] ['토', '토']
    ['토', '토', '비'] (by decide) (by decide) (by decide) (by decide) (by decide)
    (by decide)

/-- C5 counterexample: with a false-positive phrase `신고` configured for
the category, a `require_full_combination` call returns a hit whose
normalized context contains the normalized phrase — the false-positive
filter is not applied on the combination path. -/
theorem claim_C5_counterexample :
    (detectKeywordsInText c5Illegal c5Fp [] (compileNormsExact c5Illegal)
        ['토', '토', ' ', '신', '고'] false true).map
      (fun res => res.map (fun pr =>
        (pr.1, pr.2.map (fun h =>
          subStr (normalize ['신', '고']) (normalize h.context))))) =
      .ok [("cat", [true])] := by
  decide

/-- C5 (amended): on the default (non-combination) detection path the
false-positive guarantee holds: for every category with a configured
non-empty phrase list, no returned hit has a normalized context containing
the normalization of any configured non-empty phrase.  The combination
path performs no false-positive filtering (see the counterexample). -/
theorem claim_C5 (illegal fp : List (String × List Str))
    (catPats : List (String × List CatPat)) (compiled : List (String × List NormItem))
    (text : Str) (es : Bool) (res : List (String × List Hit))
    (cat : String) (lst : List Hit) (h : Hit) (phrases : List Str)
    (hdet : detectKeywordsInText illegal fp catPats compiled text es false = .ok res)
    (hlst : (cat, lst) ∈ res) (hh : h ∈ lst)
    (hfp : List.lookup cat fp = some phrases) (hpne : phrases ≠ []) :
    ∀ p ∈ phrases, p ≠ [] →
      subStr (normalize p) (normalize h.context) = false := by
  unfold detectKeywordsInText at hdet
  by_cases hte : text.isEmpty = true
  · rw [if_pos hte] at hdet
    simp only [Except.ok.injEq] at hdet
    subst hdet
    simp at hlst
  · rw [if_neg hte] at hdet
    simp only [Bool.false_eq_true, if_false] at hdet
    cases hg : detectExact compiled fp catPats text es with
    | error err => rw [hg] at hdet; simp at hdet
    | ok d =>
      rw [hg] at hdet
      simp only [Except.ok.injEq] at hdet
      subst hdet
      obtain ⟨l₀, hl₀, heq, -⟩ := removeDuplicates_mem hlst
      subst heq
      have hh₀ : h ∈ l₀ := removeDupHits_subset h hh
      unfold detectExact at hg
      obtain ⟨items, hs₀, -, -, heq₀, -⟩ := detectExactGo_mem hg (cat, l₀) hl₀
      simp only at heq₀
      rw [heq₀] at hh₀
      exact fpFilter_prop hfp hpne h hh₀

/-- C5 witness: the amended theorem applied to a concrete default-mode
call whose hit survives the filter, instantiated at the configured phrase. -/
theorem claim_C5_witness :
    subStr (normalize ['신', '고'])
      (normalize (mkHit ['토', '토'] ['토', '토'] 0 2
        ['토', '토', ' ', '거', '래']).context) = false :=
  claim_C5 c5Illegal c5Fp [] (compileNormsExact c5Illegal)
    ['토', '토', ' ', '거', '래'] false
    [("cat", [mkHit ['토', '토'] ['토', '토'] 0 2 ['토', '토', ' ', '거', '래']])] "cat"
    [mkHit ['토', '토'] ['토', '토'] 0 2 ['토', '토', ' ', '거', '래']]
    (mkHit ['토', '토'] ['토', '토'] 0 2 ['토', '토', ' ', '거', '래'])
    [['신', '고']] (by decide) (by decide) (by decide) (by decide) (by decide)
    ['신', '고'] (by decide) (by decide)

/-- C6: with `require_full_combination = true`, if no keyword of a category
is fully present in the text (no alias variant's normalization is contained
in the normalized text — i.e. the text holds at most fragments), then the
returned mapping has no entry for that category. -/
theorem claim_C6 (illegal fp : List (String × List Str))
    (catPats : List (String × List CatPat)) (compiled : List (String × List NormItem))
    (text : Str) (es : Bool) (cat : String)
    (hfrag : ∀ pr ∈ illegal, pr.1 = cat →
      ∀ kw ∈ pr.2, checkFullKeywordPresence kw text = false)
    {res : List (String × List Hit)}
    (hdet : detectKeywordsInText illegal fp catPats compiled text es true = .ok res) :
    ∀ lst, (cat, lst) ∉ res := by
  intro lst hmem
  unfold detectKeywordsInText at hdet
  by_cases hte : text.isEmpty = true
  · rw [if_pos hte] at hdet
    simp only [Except.ok.injEq] at hdet
    subst hdet
    simp at hmem
  · rw [if_neg hte] at hdet
    simp only [if_pos] at hdet
    cases hg : detectComb illegal catPats es text with
    | error err => rw [hg] at hdet; simp at hdet
    | ok d =>
      rw [hg] at hdet
      simp only [Except.ok.injEq] at hdet
      subst hdet
      obtain ⟨l₀, hl₀, -, hlne⟩ := removeDuplicates_mem hmem
      obtain ⟨klist, hkl, hcomb, hne⟩ := detectCombGo_mem hg (cat, l₀) hl₀
      have : combHitsForCat catPats es text cat klist = .ok [] :=
        combHitsForCat_nil klist (hfrag (cat, klist) hkl rfl)
      rw [this] at hcomb
      simp only [Except.ok.injEq] at hcomb
      exact hne hcomb.symm

/-- C6 witness: the theorem applied to a concrete catalog whose keyword
`토토디비` appears in the text only as the fragment `토토`. -/
theorem claim_C6_witness :
    (("cat" : String), ([] : List Hit)) ∉ ([] : List (String × List Hit)) :=
  claim_C6 [("cat", [['토', '토', '디', '비']])] [] []
    (compileNormsExact [("cat", [['토', '토', '디', '비']])]) ['토', '토'] true "cat"
    (by decide) (by decide) []

/-- C7: `_is_valid_illegal_context` accepts a candidate hit exactly as the
spec's case analysis states. -/
theorem claim_C7 (keyword context : Str) (category : String) :
    isValidIllegalContext keyword context category =
      specContextAccept keyword context category := by
  unfold isValidIllegalContext specContextAccept
  simp only
  by_cases hdb : (decide (category = "personal_db") &&
      dbKeywords.any (fun d => subStr d (keyword.map lowerChar))) = true
  · rw [if_pos hdb, if_pos hdb]
  · rw [if_neg hdb, if_neg hdb]
    cases hkt : TRADE_INDICATORS.any
        (fun t => subStr t (keyword.map lowerChar)) <;>
      cases hct : TRADE_INDICATORS.any
          (fun t => subStr t (context.map lowerChar)) <;>
        simp

end KeywordMatcher
